import Mathlib

/-!
Shallow embedding of the FQBN (fully qualified board name) library
(`src/index.ts`) and verification of its specification claims.

Strings are modelled as `List Char` (`Str`).  A JavaScript
`Record<string, string>` (a plain object used as a dictionary) is
modelled as an association list (`Opts`) kept in the object's property
enumeration order: integer-like keys (canonical array indices) first in
ascending numeric order, then string keys in insertion order, exactly
the order `Object.entries` and `Object.keys` observe.  Property reads
`record[key]` go through `jsGet`, which models the prototype chain of a
plain object: an absent own key whose name collides with an
`Object.prototype` member (such as `toString` or `constructor`) yields
an inherited, truthy, non-string value.  Property writes go through
`jsSet`, which models the silent no-op of assigning a string to
`__proto__`.  JavaScript exceptions are modelled with `Except`.
-/

deriving instance DecidableEq for Except

/-- Character list model of a JavaScript string. -/
abbrev Str := List Char

/-- Conversion of a string literal to its character list. -/
def str (s : String) : Str := s.toList

/-- JavaScript `s.split(sep)` for a single-character separator:
always returns `n + 1` pieces for `n` separators, never the empty list
(`"".split(sep)` is `[""]`). -/
def splitOnChar (sep : Char) : Str → List Str
  | [] => [[]]
  | c :: cs =>
    match splitOnChar sep cs with
    | [] => [[]]
    | p :: ps => if c = sep then [] :: p :: ps else (c :: p) :: ps

/-- Joining with a single-character separator (inverse of `splitOnChar`). -/
def joinSep (sep : Char) : List Str → Str
  | [] => []
  | [p] => p
  | p :: q :: ps => p ++ sep :: joinSep sep (q :: ps)

/-- Character class of the regex `[a-zA-Z0-9_.-]` used for the three
segments and for option keys. -/
def isSegChar (c : Char) : Bool :=
  c.isAlphanum || c == '_' || c == '.' || c == '-'

/-- Character class of the regex `[a-zA-Z0-9=_.-]` used for option values. -/
def isValueChar (c : Char) : Bool :=
  isSegChar c || c == '='

/-- Test `/^[a-zA-Z0-9_.-]*$/.test segment` (vendor, arch, boardId check). -/
def isValidSegment (s : Str) : Bool := s.all isSegChar

/-- Test `/^[a-zA-Z0-9_.-]+$/.test key` (config option key check). -/
def isValidKey (s : Str) : Bool := !s.isEmpty && s.all isSegChar

/-- Test `/^[a-zA-Z0-9=_.-]*$/.test value` (config option value check). -/
def isValidValue (s : Str) : Bool := s.all isValueChar

/-- Insertion-ordered dictionary model of the JavaScript
`Record<string, string>` holding the config options. -/
abbrev Opts := List (Str × Str)

/-- Property read `record[key]`: `some` value or `none` (`undefined`). -/
def lookupOpt : Opts → Str → Option Str
  | [], _ => none
  | (k, v) :: r, key => if k = key then some v else lookupOpt r key

/-- Numeric value of a digit string. -/
def natOfDigits (s : Str) : Nat :=
  s.foldl (fun n c => n * 10 + (c.toNat - 48)) 0

/-- Canonical array-index key in the ECMAScript sense: a canonical
decimal numeral (no leading zero except `0` itself) whose value is below
2^32 - 1.  Such own keys are enumerated first, in ascending numeric
order, before all other string keys. -/
def isArrayIndex (s : Str) : Bool :=
  !s.isEmpty && s.all (fun c => c.isDigit) &&
    (s == ['0'] || !(s.headD '0' == '0')) &&
    natOfDigits s < 4294967295

/-- Enumeration-order comparison on keys: array indices in ascending
numeric order, all of them before non-index string keys; two non-index
keys stay in insertion order. -/
def keyLE (a b : Str) : Bool :=
  if isArrayIndex a then
    if isArrayIndex b then natOfDigits a ≤ natOfDigits b else true
  else !isArrayIndex b

/-- Whether a freshly created own key is enumerated strictly before an
existing key: only an array index goes in front, ahead of every string
key and of every numerically larger index. -/
def insertBefore (newKey existing : Str) : Bool :=
  isArrayIndex newKey &&
    (!isArrayIndex existing || natOfDigits newKey < natOfDigits existing)

/-- Property write `record[key] = value` on the enumeration-ordered
representation: an existing key keeps its position and gets the new
value; a fresh array-index key is placed at its numeric position inside
the leading index block; a fresh string key is appended at the end. -/
def insertOpt : Opts → Str → Str → Opts
  | [], key, value => [(key, value)]
  | (k, v) :: r, key, value =>
    if k = key then (k, value) :: r
    else if insertBefore key k then (key, value) :: (k, v) :: r
    else (k, v) :: insertOpt r key value

/-- Own property names of `Object.prototype`: reading any of them on a
plain object with no own property of that name yields the inherited
member (a function, or `Object.prototype` itself for the accessor
`__proto__`) — a truthy, non-string value. -/
def protoKeys : List Str :=
  [str ("constructor"), str ("hasOwnProperty"), str ("isPrototypeOf"),
   str ("propertyIsEnumerable"), str ("toLocaleString"), str ("toString"),
   str ("valueOf"), str ("__proto__"), str ("__defineGetter__"),
   str ("__defineSetter__"), str ("__lookupGetter__"),
   str ("__lookupSetter__")]

/-- Key that collides with an `Object.prototype` member name. -/
def isProtoKey (s : Str) : Bool := protoKeys.contains s

/-- Result of a property read on a plain string-valued record: an own
string property, or a value inherited from `Object.prototype`. -/
inductive PropVal where
  | ownStr (s : Str)
  | inherited
deriving Repr, DecidableEq

/-- Truthiness of a read property: an own string is truthy iff
non-empty; every inherited `Object.prototype` member is truthy. -/
def truthyP : PropVal → Bool
  | .ownStr s => !s.isEmpty
  | .inherited => true

/-- Truthiness of `record[key]` (`none` models `undefined`, falsy). -/
def truthyOpt : Option PropVal → Bool
  | some pv => truthyP pv
  | none => false

/-- Property read `record[key]` including the prototype chain: an own
key yields its string; an absent own key yields the inherited
`Object.prototype` member when the name collides, else `undefined`. -/
def jsGet (r : Opts) (k : Str) : Option PropVal :=
  match lookupOpt r k with
  | some v => some (.ownStr v)
  | none => if isProtoKey k then some .inherited else none

/-- Property write `record[key] = value` as the source executes it:
assigning a string to `__proto__` invokes the inherited accessor and is
a silent no-op (no own property is created); every other key becomes or
updates an own property. -/
def jsSet (r : Opts) (k v : Str) : Opts :=
  if k = str ("__proto__") then r else insertOpt r k v

/-- Structured content of the human-readable `detail` message carried by
a `ConfigOptionError`: each constructor holds exactly the data the
source interpolates into the corresponding message string. -/
inductive ConfigDetail where
  /-- Message `Invalid config option: (tuple)` -/
  | invalidTuple (tuple : Str)
  /-- Message `Invalid config option key: (key) ((tuple))` -/
  | invalidKey (key : Str) (tuple : Str)
  /-- Message `Invalid config option value: (value) ((tuple))` -/
  | invalidValue (value : Str) (tuple : Str)
  /-- Message `Duplicate config options: (key):(existing), (key):(value)`;
  the existing value is whatever the property read returned (an own
  string, or an inherited prototype member). -/
  | duplicate (key : Str) (existing : PropVal) (value : Str)
  /-- Message `No selected value for config option: (key)` -/
  | noSelected (key : Str)
  /-- Message `Multiple selected value for config option: (key)` -/
  | multipleSelected (key : Str)
  /-- Message `Config option (key) must be present in the FQBN ((fqbn)) when using strict mode.` -/
  | strictMissing (fqbn : Str) (key : Str)
  /-- Message `Mismatching FQBNs. this: (thisFqbn), other: (otherFqbn)` -/
  | mismatch (thisFqbn otherFqbn : Str)
deriving Repr, DecidableEq

/-- The classified failures of the library: `InvalidFQBNError fqbn`,
its refinement `ConfigOptionError (fqbn, detail)`, and the `RangeError`
thrown by `limitConfigOptions`. -/
inductive FQBNError where
  | invalid (fqbn : Str)
  | configOption (fqbn : Str) (detail : ConfigDetail)
  | rangeErr
deriving Repr, DecidableEq

/-- The FQBN value object: vendor, architecture, board identifier and
the optional ordered config options (`none` models the absent
`options` field, not an empty record). -/
structure FQBN where
  vendor : Str
  arch : Str
  boardId : Str
  options : Option Opts
deriving Repr, DecidableEq

/-- The config-option tuple loop of the constructor (lines 110-142 of
`src/index.ts`): `tuple.split('=', 2)` (JavaScript truncation semantics:
at most the first two pieces are kept, the rest of the tuple is
discarded), key and value character-class checks, and the truthy
duplicate check `if (existingValue)` — a prototype-chain read, so a
first occurrence of a key such as `toString` already fires it. -/
def parseTuples (fqbn : Str) : List Str → Opts → Except FQBNError Opts
  | [], options => .ok options
  | tuple :: rest, options =>
    match (splitOnChar '=' tuple).take 2 with
    | [key, value] =>
      if !isValidKey key then
        .error (.configOption fqbn (.invalidKey key tuple))
      else if !isValidValue value then
        .error (.configOption fqbn (.invalidValue value tuple))
      else
        match jsGet options key with
        | some existing =>
          if truthyP existing then
            .error (.configOption fqbn (.duplicate key existing value))
          else
            parseTuples fqbn rest (jsSet options key value)
        | none => parseTuples fqbn rest (jsSet options key value)
    | _ => .error (.configOption fqbn (.invalidTuple tuple))

/-- The `FQBN` constructor (lines 94-150 of `src/index.ts`): split on
`:`, demand 3 or 4 segments, validate the first three segments, demand a
non-empty board id, then run the tuple loop on the 4th segment when it
exists; the accumulated options are stored only when non-empty. -/
def parseFQBN (fqbn : Str) : Except FQBNError FQBN :=
  match splitOnChar ':' fqbn with
  | [vendor, arch, boardId] =>
    if isValidSegment vendor && isValidSegment arch && isValidSegment boardId
    then
      if boardId.isEmpty then .error (.invalid fqbn)
      else .ok ⟨vendor, arch, boardId, none⟩
    else .error (.invalid fqbn)
  | [vendor, arch, boardId, rest] =>
    if isValidSegment vendor && isValidSegment arch && isValidSegment boardId
    then
      if boardId.isEmpty then .error (.invalid fqbn)
      else
        match parseTuples fqbn (splitOnChar ',' rest) [] with
        | .error e => .error e
        | .ok options =>
          .ok ⟨vendor, arch, boardId,
            if options.isEmpty then none else some options⟩
    else .error (.invalid fqbn)
  | _ => .error (.invalid fqbn)

/-- One `key=value` tuple in the serialized options block. -/
def tupleStr (kv : Str × Str) : Str := kv.1 ++ '=' :: kv.2

/-- The `serialize` helper (lines 524-536 of `src/index.ts`). -/
def serialize (vendor arch boardId : Str) (options : Option Opts) : Str :=
  let configs : Str :=
    match options with
    | none => []
    | some o => joinSep ',' (o.map tupleStr)
  vendor ++ ':' :: arch ++ ':' :: boardId ++
    (if configs.isEmpty then [] else ':' :: configs)

/-- Method `FQBN.toString(skipOptions = false)`. -/
def FQBN.toStr (f : FQBN) (skipOptions : Bool := false) : Str :=
  serialize f.vendor f.arch f.boardId
    (if skipOptions then none else some (f.options.getD []))

/-- Model of `deepEqual(this.options, other.options)` (strict) on the
optional records: equal as key/value sets (mutual lookup containment);
an absent record is only equal to an absent record. -/
def optionsDeepEqual : Option Opts → Option Opts → Bool
  | none, none => true
  | some a, some b =>
    a.all (fun kv => lookupOpt b kv.1 == some kv.2) &&
      b.all (fun kv => lookupOpt a kv.1 == some kv.2)
  | _, _ => false

/-- Method `FQBN.equals` (lines 511-521 of `src/index.ts`). -/
def FQBN.equalsB (x y : FQBN) : Bool :=
  x.vendor == y.vendor && x.arch == y.arch && x.boardId == y.boardId &&
    optionsDeepEqual x.options y.options

/-- Type `ConfigValue`: a candidate value and its selected flag (the optional
human-readable `valueLabel` is never read by the code and is not
modelled). -/
structure ConfigValue where
  value : Str
  selected : Bool
deriving Repr, DecidableEq

/-- Type `ConfigOption`: an option key and its candidate values (the optional
`optionLabel` is never read by the code and is not modelled). -/
structure ConfigOption where
  option : Str
  values : List ConfigValue
deriving Repr, DecidableEq

/-- First phase of `withConfigOptions` (lines 202-227 of
`src/index.ts`): resolve each descriptor to its unique selected value,
failing on zero or multiple selected values, and on a duplicate key
(again a truthy prototype-chain read: an existing empty-string value is
overwritten silently, while a key colliding with an `Object.prototype`
member name fires the duplicate error on its first occurrence). -/
def resolveNewOptions (selfStr : Str) :
    List ConfigOption → Opts → Except FQBNError Opts
  | [], newOptions => .ok newOptions
  | co :: rest, newOptions =>
    let key := co.option
    match co.values.filter (fun v => v.selected) with
    | [] => .error (.configOption selfStr (.noSelected key))
    | [sel] =>
      match jsGet newOptions key with
      | some existing =>
        if truthyP existing then
          .error (.configOption selfStr (.duplicate key existing sel.value))
        else
          resolveNewOptions selfStr rest (jsSet newOptions key sel.value)
      | none => resolveNewOptions selfStr rest (jsSet newOptions key sel.value)
    | _ => .error (.configOption selfStr (.multipleSelected key))

/-- Second phase of `withConfigOptions` (lines 229-239 of
`src/index.ts`): overlay the resolved pairs onto a clone of the current
options, recording whether any value actually changed
(`existingValue !== newValue`, a strict comparison: only an own string
property equal to the new value skips the write). -/
def applyUpdates (options : Opts) : Opts → Opts × Bool
  | [] => (options, false)
  | (key, newValue) :: rest =>
    if jsGet options key = some (.ownStr newValue) then
      applyUpdates options rest
    else
      let r := applyUpdates (jsSet options key newValue) rest
      (r.1, true)

/-- Method `FQBN.withConfigOptions` (lines 198-247 of `src/index.ts`). -/
def FQBN.withConfigOptions (self : FQBN) (configOptions : List ConfigOption) :
    Except FQBNError FQBN :=
  if configOptions.isEmpty then .ok self
  else
    match resolveNewOptions (self.toStr) configOptions [] with
    | .error e => .error e
    | .ok newOptions =>
      let r := applyUpdates (self.options.getD []) newOptions
      if !r.2 then .ok self
      else parseFQBN (serialize self.vendor self.arch self.boardId (some r.1))

/-- Method `FQBN.setConfigOption` (lines 298-319 of `src/index.ts`): the strict
check is the truthy `!options[option]`, a prototype-chain read: it fires
when the key is absent or maps to the empty string, but not when the
absent key collides with an `Object.prototype` member name (the
inherited member is truthy). -/
def FQBN.setConfigOption (self : FQBN) (option value : Str)
    (strict : Bool := false) : Except FQBNError FQBN :=
  let options := self.options.getD []
  if strict && !truthyOpt (jsGet options option) then
    .error (.configOption (self.toStr) (.strictMissing (self.toStr) option))
  else
    self.withConfigOptions [⟨option, [⟨value, true⟩]⟩]

/-- Helper `hasConfigOptions` (lines 562-564 of `src/index.ts`). -/
def hasConfigOptions (f : FQBN) : Bool :=
  match f.options with
  | some o => !o.isEmpty
  | none => false

/-- Method `FQBN.sanitize` (lines 398-403 of `src/index.ts`): re-parses the
option-free serialization (the constructor call can throw, hence
`Except`). -/
def FQBN.sanitizeE (f : FQBN) : Except FQBNError FQBN :=
  if hasConfigOptions f then parseFQBN (f.toStr true) else .ok f

/-- Method `FQBN.withFQBN` (lines 360-379 of `src/index.ts`): parse the other
string (errors propagate), compare the two sanitized identifiers, then
merge the options of the other identifier in as selected-value
descriptors. -/
def FQBN.withFQBN (self : FQBN) (fqbn : Str) : Except FQBNError FQBN :=
  match parseFQBN fqbn with
  | .error e => .error e
  | .ok other =>
    match self.sanitizeE with
    | .error e => .error e
    | .ok s =>
      match other.sanitizeE with
      | .error e => .error e
      | .ok os =>
        if !(s.equalsB os) then
          .error (.configOption fqbn (.mismatch (self.toStr) fqbn))
        else
          self.withConfigOptions
            ((other.options.getD []).map fun kv => ⟨kv.1, [⟨kv.2, true⟩]⟩)

/-- Method `FQBN.limitConfigOptions` (lines 437-463 of `src/index.ts`).  The
JavaScript `number` argument is modelled as a rational so that the
`Number.isInteger` guard is expressible (`den = 1`). -/
def FQBN.limitConfigOptions (f : FQBN) (maxOptions : ℚ) :
    Except FQBNError FQBN :=
  if ¬(maxOptions.den = 1) ∨ maxOptions < 0 then .error .rangeErr
  else
    match f.options with
    | none => .ok f
    | some options =>
      if maxOptions = 0 then f.sanitizeE
      else if (options.length : ℚ) ≤ maxOptions then .ok f
      else
        parseFQBN (serialize f.vendor f.arch f.boardId
          (some (options.take maxOptions.num.toNat)))

/-- Function `valid` (lines 551-560 of `src/index.ts`): downgrades the classified
parse failures to `none`. -/
def validFQBN (fqbn : Str) : Option FQBN :=
  match parseFQBN fqbn with
  | .ok f => some f
  | .error _ => none

/-- Keys of a record, in order. -/
def keysOf (r : Opts) : List Str := r.map Prod.fst

/-- A grammar-valid entry: valid key, an equals-free valid value, and a
key that does not collide with an `Object.prototype` member name (such a
key can never be written into a reachable record: the truthy duplicate
read sees the inherited member first and raises). -/
def validEntry (kv : Str × Str) : Bool :=
  isValidKey kv.1 && kv.2.all isSegChar && !isProtoKey kv.1

/-- Value part of a raw option tuple (the piece between the first `=`
and the second `=` or the end). -/
def valOfTuple (t : Str) : Str := ((splitOnChar '=' t).drop 1).headD []

/-- Resolved selected value of a descriptor (the value of the unique
selected candidate when the descriptor is valid). -/
def selValue (co : ConfigOption) : Str :=
  ((co.values.filter (fun v => v.selected)).headD ⟨[], true⟩).value

/-- The key/selected-value pairs of a descriptor list. -/
def descPairs (l : List ConfigOption) : Opts :=
  l.map fun co => (co.option, selValue co)

/-- A valid descriptor list in the sense of the spec: every descriptor
has exactly one selected candidate, a grammar-valid key and a
grammar-valid (equals-free) selected value, and keys are pairwise
distinct and avoid `Object.prototype` member names. -/
def validDescList (l : List ConfigOption) : Bool :=
  l.all (fun co =>
    ((co.values.filter (fun v => v.selected)).length == 1) &&
      isValidKey co.option && (selValue co).all isSegChar &&
      !isProtoKey co.option) &&
  decide ((l.map (fun co => co.option)).Nodup)

/-- Grammar-valid option list with distinct prototype-free keys and
equals-free values, listed in JavaScript property-enumeration order:
the invariant of every reachable options record. -/
def validOptsB (o : Opts) : Bool :=
  o.all validEntry &&
  decide ((o.map Prod.fst).Nodup) &&
  decide ((o.map Prod.fst).Pairwise (fun a b => keyLE a b = true))

/-- Invariant of the optional options field: absent, or non-empty and
valid. -/
def wellformedOptsB : Option Opts → Bool
  | none => true
  | some o => !o.isEmpty && validOptsB o

/-- The data invariant of every reachable `FQBN` instance. -/
def wellformedB (x : FQBN) : Bool :=
  isValidSegment x.vendor && isValidSegment x.arch &&
    isValidSegment x.boardId && !x.boardId.isEmpty &&
    wellformedOptsB x.options

/-- Key part of a raw option tuple (the piece before the first `=`). -/
def keyOfTuple (t : Str) : Str := (splitOnChar '=' t).headD []

/-- Canonical options block: every tuple has exactly one `=`, tuple keys
are pairwise distinct, and the keys are already listed in JavaScript
property-enumeration order (integer-like keys first, ascending; other
keys after, in insertion order). Under these conditions parsing loses no
information and changes no order, so serialization restores the raw
string. -/
def canonicalRawB (s : Str) : Bool :=
  match splitOnChar ':' s with
  | [_, _, _, rest] =>
    (splitOnChar ',' rest).all (fun t => (splitOnChar '=' t).length == 2) &&
      decide (((splitOnChar ',' rest).map keyOfTuple).Nodup) &&
      decide (((splitOnChar ',' rest).map keyOfTuple).Pairwise
        (fun a b => keyLE a b = true))
  | _ => true

/-- The merge of resolved pairs into an existing record, stated the way
the spec describes it: existing keys keep their position (values
overlaid), new keys are appended in resolved order after all existing
keys. -/
def overlayOpts (old resolved : Opts) : Opts :=
  old.map (fun kv => (kv.1, (lookupOpt resolved kv.1).getD kv.2)) ++
    resolved.filter (fun kv => (lookupOpt old kv.1).isNone)

/-- Equality of the optional option records as sets of key/value pairs
(the spec side of the `equals` claim): both absent, or both present
with the same pairs regardless of order. -/
def sameOptionPairs : Option Opts → Option Opts → Prop
  | none, none => True
  | some a, some b => ∀ p : Str × Str, p ∈ a ↔ p ∈ b
  | _, _ => False

/-- Key present with a non-empty value (what the truthy strict-mode
check of `setConfigOption` actually tests). -/
def presentNonempty (x : FQBN) (k : Str) : Bool :=
  match lookupOpt (x.options.getD []) k with
  | some ev => !ev.isEmpty
  | none => false

/-! ### Split / join lemmas -/

theorem splitOnChar_ne_nil (sep : Char) (s : Str) : splitOnChar sep s ≠ [] := by
  cases s with
  | nil => simp [splitOnChar]
  | cons c cs =>
    simp only [splitOnChar]
    match h : splitOnChar sep cs with
    | [] => simp
    | p :: ps =>
      by_cases hc : c = sep <;> simp [hc]

theorem joinSep_cons (sep : Char) (p : Str) (ps : List Str) :
    joinSep sep (p :: ps) =
      p ++ (match ps with | [] => [] | _ :: _ => sep :: joinSep sep ps) := by
  cases ps <;> simp [joinSep]

theorem joinSep_splitOnChar (sep : Char) (s : Str) :
    joinSep sep (splitOnChar sep s) = s := by
  induction s with
  | nil => rfl
  | cons c cs ih =>
    rcases h : splitOnChar sep cs with _ | ⟨p, ps⟩
    · exact absurd h (splitOnChar_ne_nil sep cs)
    · rw [h] at ih
      by_cases hc : c = sep
      · subst hc
        simp only [splitOnChar, h, if_pos rfl, joinSep, List.nil_append]
        rw [ih]
      · simp only [splitOnChar, h, if_neg hc]
        cases ps with
        | nil =>
          simp only [joinSep] at ih ⊢
          rw [ih]
        | cons q qs =>
          simp only [joinSep] at ih ⊢
          rw [List.cons_append, ih]

theorem splitOnChar_not_mem (sep : Char) (s : Str) (h : sep ∉ s) :
    splitOnChar sep s = [s] := by
  induction s with
  | nil => rfl
  | cons c cs ih =>
    simp only [List.mem_cons, not_or] at h
    simp only [splitOnChar, ih h.2, if_neg (Ne.symm h.1)]

theorem splitOnChar_append (sep : Char) (x r : Str) (h : sep ∉ x) :
    splitOnChar sep (x ++ sep :: r) = x :: splitOnChar sep r := by
  induction x with
  | nil =>
    rcases h2 : splitOnChar sep r with _ | ⟨p, ps⟩
    · exact absurd h2 (splitOnChar_ne_nil sep r)
    · simp [List.nil_append, splitOnChar, h2]
  | cons c cs ih =>
    simp only [List.mem_cons, not_or] at h
    simp only [List.cons_append, splitOnChar, List.append_eq, ih h.2,
      if_neg (Ne.symm h.1)]

theorem mem_splitOnChar_not_mem (sep : Char) (s p : Str)
    (hp : p ∈ splitOnChar sep s) : sep ∉ p := by
  induction s generalizing p with
  | nil =>
    simp only [splitOnChar, List.mem_singleton] at hp
    subst hp; simp
  | cons c cs ih =>
    rcases h : splitOnChar sep cs with _ | ⟨q, qs⟩
    · exact absurd h (splitOnChar_ne_nil sep cs)
    · simp only [splitOnChar, h] at hp
      by_cases hc : c = sep
      · rw [if_pos hc] at hp
        rcases List.mem_cons.1 hp with h1 | h1
        · subst h1; simp
        · exact ih p (h ▸ h1)
      · rw [if_neg hc] at hp
        rcases List.mem_cons.1 hp with h1 | h1
        · subst h1
          intro hmem
          rcases List.mem_cons.1 hmem with h2 | h2
          · exact hc h2.symm
          · exact ih q (h ▸ List.mem_cons_self q qs) h2
        · exact ih p (h ▸ List.mem_cons.2 (Or.inr h1))

theorem splitOnChar_joinSep (sep : Char) (parts : List Str)
    (hne : parts ≠ []) (h : ∀ p ∈ parts, sep ∉ p) :
    splitOnChar sep (joinSep sep parts) = parts := by
  induction parts with
  | nil => exact absurd rfl hne
  | cons p ps ih =>
    cases ps with
    | nil => simpa [joinSep] using splitOnChar_not_mem sep p (h p (by simp))
    | cons q qs =>
      rw [joinSep, splitOnChar_append sep p _ (h p (by simp))]
      rw [ih (by simp) (fun r hr => h r (List.mem_cons.2 (Or.inr hr)))]

theorem splitOnChar_length (sep : Char) (s : Str) :
    (splitOnChar sep s).length = s.count sep + 1 := by
  induction s with
  | nil => rfl
  | cons c cs ih =>
    rcases h : splitOnChar sep cs with _ | ⟨p, ps⟩
    · exact absurd h (splitOnChar_ne_nil sep cs)
    · rw [h] at ih
      by_cases hc : c = sep
      · subst hc
        simp only [splitOnChar, h, if_pos rfl, List.count_cons_self,
          List.length_cons]
        simpa using ih
      · simp only [splitOnChar, h, if_neg hc,
          List.count_cons_of_ne (Ne.symm hc), List.length_cons]
        simpa using ih

/-! ### Character class lemmas -/

theorem isSegChar_ne_colon {c : Char} (h : isSegChar c = true) : c ≠ ':' := by
  intro hc; subst hc; simp [isSegChar, Char.isAlphanum, Char.isAlpha,
    Char.isUpper, Char.isLower, Char.isDigit] at h

theorem isSegChar_ne_comma {c : Char} (h : isSegChar c = true) : c ≠ ',' := by
  intro hc; subst hc; simp [isSegChar, Char.isAlphanum, Char.isAlpha,
    Char.isUpper, Char.isLower, Char.isDigit] at h

theorem isSegChar_ne_eq {c : Char} (h : isSegChar c = true) : c ≠ '=' := by
  intro hc; subst hc; simp [isSegChar, Char.isAlphanum, Char.isAlpha,
    Char.isUpper, Char.isLower, Char.isDigit] at h

theorem seg_not_mem_colon {s : Str} (h : s.all isSegChar = true) : ':' ∉ s :=
  fun hm => isSegChar_ne_colon (List.all_eq_true.1 h _ hm) rfl

theorem seg_not_mem_comma {s : Str} (h : s.all isSegChar = true) : ',' ∉ s :=
  fun hm => isSegChar_ne_comma (List.all_eq_true.1 h _ hm) rfl

theorem seg_not_mem_eq {s : Str} (h : s.all isSegChar = true) : '=' ∉ s :=
  fun hm => isSegChar_ne_eq (List.all_eq_true.1 h _ hm) rfl

/-! ### Record (association list) lemmas -/

theorem lookupOpt_eq_none_iff (r : Opts) (k : Str) :
    lookupOpt r k = none ↔ k ∉ keysOf r := by
  induction r with
  | nil => simp [lookupOpt, keysOf]
  | cons kv rest ih =>
    obtain ⟨k1, v1⟩ := kv
    by_cases hk : k1 = k
    · subst hk
      simp [lookupOpt, keysOf]
    · simp [lookupOpt, if_neg hk, keysOf, ih, Ne.symm hk]

theorem lookupOpt_mem (r : Opts) (k v : Str) (h : lookupOpt r k = some v) :
    (k, v) ∈ r := by
  induction r with
  | nil => simp [lookupOpt] at h
  | cons kv rest ih =>
    obtain ⟨k1, v1⟩ := kv
    by_cases hk : k1 = k
    · subst hk
      rw [lookupOpt, if_pos rfl] at h
      injection h with h
      subst h
      exact List.mem_cons_self _ _
    · rw [lookupOpt, if_neg hk] at h
      exact List.mem_cons.2 (Or.inr (ih h))

theorem mem_lookupOpt (r : Opts) (k v : Str) (hnd : (keysOf r).Nodup)
    (h : (k, v) ∈ r) : lookupOpt r k = some v := by
  induction r with
  | nil => simp at h
  | cons kv rest ih =>
    obtain ⟨k1, v1⟩ := kv
    simp only [keysOf, List.map_cons, List.nodup_cons] at hnd
    rcases List.mem_cons.1 h with h1 | h1
    · obtain ⟨rfl, rfl⟩ := Prod.mk.injEq .. ▸ h1
      simp [lookupOpt]
    · have hk : k1 ≠ k := by
        rintro rfl
        exact hnd.1 (List.mem_map.2 ⟨(k1, v), h1, rfl⟩)
      rw [lookupOpt, if_neg hk]
      exact ih hnd.2 h1

theorem insertBefore_eq_false_iff (k k1 : Str) :
    insertBefore k k1 = false ↔ keyLE k1 k = true := by
  rw [insertBefore, keyLE]
  rcases h1 : isArrayIndex k with _ | _ <;>
    rcases h2 : isArrayIndex k1 with _ | _ <;>
      simp [h1, h2]

theorem keyLE_total (a b : Str) : keyLE a b = true ∨ keyLE b a = true := by
  rw [keyLE, keyLE]
  rcases h1 : isArrayIndex a with _ | _ <;>
    rcases h2 : isArrayIndex b with _ | _ <;>
      simp [h1, h2]
  omega

theorem keyLE_trans {a b c : Str} (h1 : keyLE a b = true)
    (h2 : keyLE b c = true) : keyLE a c = true := by
  rw [keyLE] at h1 h2 ⊢
  rcases ha : isArrayIndex a with _ | _ <;>
    rcases hb : isArrayIndex b with _ | _ <;>
      rcases hc : isArrayIndex c with _ | _ <;>
        simp [ha, hb, hc] at h1 h2 ⊢ <;> try omega

theorem keyLE_of_nonidx_right {a b : Str} (h : isArrayIndex b = false) :
    keyLE a b = true := by
  rw [keyLE]
  rcases h1 : isArrayIndex a with _ | _ <;> simp [h1, h]

theorem insertOpt_ne_nil (r : Opts) (k v : Str) : insertOpt r k v ≠ [] := by
  cases r with
  | nil => simp [insertOpt]
  | cons kv rest =>
    obtain ⟨k1, v1⟩ := kv
    rw [insertOpt]
    split
    · simp
    · split <;> simp

theorem insertOpt_append (r : Opts) (k v : Str) (h : k ∉ keysOf r)
    (hno : ∀ k1 ∈ keysOf r, keyLE k1 k = true) :
    insertOpt r k v = r ++ [(k, v)] := by
  induction r with
  | nil => rfl
  | cons kv rest ih =>
    obtain ⟨k1, v1⟩ := kv
    simp only [keysOf, List.map_cons, List.mem_cons, not_or] at h
    have hb : insertBefore k k1 = false :=
      (insertBefore_eq_false_iff k k1).2 (hno k1 (by simp [keysOf]))
    rw [insertOpt, if_neg (Ne.symm h.1), if_neg (by simp [hb]),
      ih h.2 (fun k2 hk2 => hno k2 (by
        simp only [keysOf, List.map_cons, List.mem_cons]
        exact Or.inr hk2)),
      List.cons_append]

theorem insertOpt_of_not_mem (r : Opts) (k v : Str) (h : k ∉ keysOf r)
    (hni : isArrayIndex k = false) : insertOpt r k v = r ++ [(k, v)] :=
  insertOpt_append r k v h (fun _ _ => keyLE_of_nonidx_right hni)

theorem keysOf_insertOpt_perm (r : Opts) (k v : Str) (h : k ∉ keysOf r) :
    (keysOf (insertOpt r k v)).Perm (k :: keysOf r) := by
  induction r with
  | nil => simp [insertOpt, keysOf]
  | cons kv rest ih =>
    obtain ⟨k1, v1⟩ := kv
    simp only [keysOf, List.map_cons, List.mem_cons, not_or] at h
    rw [insertOpt, if_neg (Ne.symm h.1)]
    split
    · simp [keysOf]
    · simp only [keysOf, List.map_cons]
      exact ((ih h.2).cons k1).trans (List.Perm.swap k k1 _)

theorem mem_keysOf_insertOpt_inv (r : Opts) (k v k2 : Str)
    (h : k2 ∈ keysOf (insertOpt r k v)) : k2 = k ∨ k2 ∈ keysOf r := by
  induction r with
  | nil => simpa [insertOpt, keysOf] using h
  | cons kv rest ih =>
    obtain ⟨k1, v1⟩ := kv
    rw [insertOpt] at h
    split at h
    · rename_i hk
      simp only [keysOf, List.map_cons, List.mem_cons] at h ⊢
      rcases h with h | h
      · exact Or.inl (h.trans hk)
      · exact Or.inr (Or.inr h)
    · split at h
      · simp only [keysOf, List.map_cons, List.mem_cons] at h ⊢
        rcases h with h | h | h
        · exact Or.inl h
        · exact Or.inr (Or.inl h)
        · exact Or.inr (Or.inr h)
      · simp only [keysOf, List.map_cons, List.mem_cons] at h ⊢
        rcases h with h | h
        · exact Or.inr (Or.inl h)
        · rcases ih h with h2 | h2
          · exact Or.inl h2
          · exact Or.inr (Or.inr h2)

theorem keysOf_insertOpt_mem (r : Opts) (k v : Str)
    (hpw : (keysOf r).Pairwise (fun a b => keyLE a b = true))
    (h : k ∈ keysOf r) : keysOf (insertOpt r k v) = keysOf r := by
  induction r with
  | nil => simp [keysOf] at h
  | cons kv rest ih =>
    obtain ⟨k1, v1⟩ := kv
    simp only [keysOf, List.map_cons, List.pairwise_cons] at hpw
    by_cases hk : k1 = k
    · subst hk
      rw [insertOpt, if_pos rfl]
      simp [keysOf]
    · simp only [keysOf, List.map_cons, List.mem_cons] at h
      rcases h with h1 | h1
      · exact absurd h1.symm hk
      · have hb : insertBefore k k1 = false :=
          (insertBefore_eq_false_iff k k1).2 (hpw.1 k h1)
        rw [insertOpt, if_neg hk, if_neg (by simp [hb])]
        simp only [keysOf, List.map_cons] at ih ⊢
        rw [ih hpw.2 h1]

theorem pairwise_keysOf_insertOpt (r : Opts) (k v : Str)
    (hpw : (keysOf r).Pairwise (fun a b => keyLE a b = true)) :
    (keysOf (insertOpt r k v)).Pairwise (fun a b => keyLE a b = true) := by
  induction r with
  | nil => simp [insertOpt, keysOf]
  | cons kv rest ih =>
    obtain ⟨k1, v1⟩ := kv
    simp only [keysOf, List.map_cons, List.pairwise_cons] at hpw
    rw [insertOpt]
    split
    · simp only [keysOf, List.map_cons, List.pairwise_cons]
      exact hpw
    · split
      · rename_i hk hb
        have hk1k : ¬keyLE k1 k = true := by
          intro h0
          rw [← insertBefore_eq_false_iff] at h0
          rw [h0] at hb
          exact Bool.noConfusion hb
        have hkk1 : keyLE k k1 = true := (keyLE_total k1 k).resolve_left hk1k
        simp only [keysOf, List.map_cons, List.pairwise_cons]
        refine ⟨?_, hpw.1, hpw.2⟩
        intro b hb2
        rcases List.mem_cons.1 hb2 with h2 | h2
        · exact h2 ▸ hkk1
        · exact keyLE_trans hkk1 (hpw.1 b h2)
      · rename_i hk hb
        have hble : keyLE k1 k = true :=
          (insertBefore_eq_false_iff k k1).1 (Bool.not_eq_true _ ▸ hb)
        simp only [keysOf, List.map_cons, List.pairwise_cons]
        refine ⟨?_, ih hpw.2⟩
        intro b hb2
        rcases mem_keysOf_insertOpt_inv rest k v b hb2 with h2 | h2
        · exact h2 ▸ hble
        · exact hpw.1 b h2

theorem lookupOpt_insertOpt_self (r : Opts) (k v : Str) :
    lookupOpt (insertOpt r k v) k = some v := by
  induction r with
  | nil => simp [insertOpt, lookupOpt]
  | cons kv rest ih =>
    obtain ⟨k1, v1⟩ := kv
    by_cases hk : k1 = k
    · subst hk
      simp [insertOpt, lookupOpt]
    · rw [insertOpt, if_neg hk]
      split
      · rw [lookupOpt, if_pos rfl]
      · rw [lookupOpt, if_neg hk]
        exact ih

theorem lookupOpt_insertOpt_ne (r : Opts) (k v k2 : Str) (h : k ≠ k2) :
    lookupOpt (insertOpt r k v) k2 = lookupOpt r k2 := by
  induction r with
  | nil => simp [insertOpt, lookupOpt, if_neg h]
  | cons kv rest ih =>
    obtain ⟨k1, v1⟩ := kv
    by_cases hk : k1 = k
    · subst hk
      rw [insertOpt, if_pos rfl, lookupOpt, lookupOpt, if_neg h, if_neg h]
    · rw [insertOpt, if_neg hk]
      split
      · rw [lookupOpt, if_neg h]
      · rw [lookupOpt, lookupOpt]
        by_cases hk2 : k1 = k2
        · rw [if_pos hk2, if_pos hk2]
        · rw [if_neg hk2, if_neg hk2]
          exact ih

theorem jsGet_non_proto (r : Opts) (k : Str) (hp : isProtoKey k = false) :
    jsGet r k = (lookupOpt r k).map PropVal.ownStr := by
  rw [jsGet]
  rcases h : lookupOpt r k with _ | v
  · simp [hp]
  · simp

theorem jsGet_ownStr_iff (r : Opts) (k v : Str) :
    jsGet r k = some (.ownStr v) ↔ lookupOpt r k = some v := by
  rw [jsGet]
  rcases h : lookupOpt r k with _ | w
  · rcases hp : isProtoKey k with _ | _ <;> simp
  · simp

theorem jsGet_eq_none_iff (r : Opts) (k : Str) :
    jsGet r k = none ↔ lookupOpt r k = none ∧ isProtoKey k = false := by
  rw [jsGet]
  rcases h : lookupOpt r k with _ | w
  · rcases hp : isProtoKey k with _ | _ <;> simp [hp]
  · simp

theorem jsSet_non_proto (r : Opts) (k v : Str) (hp : isProtoKey k = false) :
    jsSet r k v = insertOpt r k v := by
  rw [jsSet, if_neg]
  intro h0
  subst h0
  exact absurd hp (by decide)

theorem truthyOpt_jsGet (r : Opts) (k : Str) (hp : isProtoKey k = false) :
    truthyOpt (jsGet r k) =
      match lookupOpt r k with
      | some v => !v.isEmpty
      | none => false := by
  rw [jsGet_non_proto r k hp]
  rcases h : lookupOpt r k with _ | v <;> simp [truthyOpt, truthyP]

theorem lookupOpt_append_left (a b : Opts) (k : Str) (h : k ∈ keysOf a) :
    lookupOpt (a ++ b) k = lookupOpt a k := by
  induction a with
  | nil => simp [keysOf] at h
  | cons kv rest ih =>
    obtain ⟨k1, v1⟩ := kv
    by_cases hk : k1 = k
    · subst hk
      simp [lookupOpt]
    · simp only [keysOf, List.map_cons, List.mem_cons] at h
      rcases h with h1 | h1
      · exact absurd h1.symm hk
      · simp only [List.cons_append, lookupOpt, if_neg hk]
        exact ih h1

theorem lookupOpt_append_right (a b : Opts) (k : Str) (h : k ∉ keysOf a) :
    lookupOpt (a ++ b) k = lookupOpt b k := by
  induction a with
  | nil => simp
  | cons kv rest ih =>
    obtain ⟨k1, v1⟩ := kv
    simp only [keysOf, List.map_cons, List.mem_cons, not_or] at h
    simp only [List.cons_append, lookupOpt, if_neg (Ne.symm h.1)]
    exact ih h.2

/-! ### Validity lemmas -/

theorem validOptsB_iff (o : Opts) :
    validOptsB o = true ↔
      (∀ kv ∈ o, validEntry kv = true) ∧ (keysOf o).Nodup ∧
        (keysOf o).Pairwise (fun a b => keyLE a b = true) := by
  simp [validOptsB, List.all_eq_true, keysOf, and_assoc]

theorem validEntry_parts {kv : Str × Str} (h : validEntry kv = true) :
    isValidKey kv.1 = true ∧ kv.2.all isSegChar = true ∧
      isProtoKey kv.1 = false := by
  simp only [validEntry, Bool.and_eq_true, Bool.not_eq_true'] at h
  exact ⟨h.1.1, h.1.2, h.2⟩

theorem seg_all_isValidValue {s : Str} (h : s.all isSegChar = true) :
    isValidValue s = true := by
  simp only [isValidValue, List.all_eq_true] at h ⊢
  intro c hc
  simp [isValueChar, h c hc]

theorem value_no_eq_all_seg {s : Str} (h : isValidValue s = true)
    (he : '=' ∉ s) : s.all isSegChar = true := by
  simp only [isValidValue, List.all_eq_true] at h ⊢
  intro c hc
  have h2 := h c hc
  simp only [isValueChar, Bool.or_eq_true, beq_iff_eq] at h2
  rcases h2 with h2 | h2
  · exact h2
  · exact absurd (h2 ▸ hc) he

theorem mem_insertOpt (r : Opts) (k v : Str) (kv : Str × Str)
    (h : kv ∈ insertOpt r k v) : kv ∈ r ∨ kv = (k, v) := by
  induction r with
  | nil => simpa [insertOpt] using h
  | cons kv1 rest ih =>
    obtain ⟨k1, v1⟩ := kv1
    by_cases hk : k1 = k
    · subst hk
      rw [insertOpt, if_pos rfl] at h
      rcases List.mem_cons.1 h with h1 | h1
      · exact Or.inr (by simpa using h1)
      · exact Or.inl (List.mem_cons.2 (Or.inr h1))
    · rw [insertOpt, if_neg hk] at h
      split at h
      · rcases List.mem_cons.1 h with h1 | h1
        · exact Or.inr h1
        · exact Or.inl h1
      · rcases List.mem_cons.1 h with h1 | h1
        · exact Or.inl (List.mem_cons.2 (Or.inl h1))
        · rcases ih h1 with h2 | h2
          · exact Or.inl (List.mem_cons.2 (Or.inr h2))
          · exact Or.inr h2

theorem keysOf_append (a b : Opts) : keysOf (a ++ b) = keysOf a ++ keysOf b := by
  simp [keysOf]

theorem nodup_keysOf_insertOpt (old : Opts) (k v : Str)
    (hold : (keysOf old).Nodup)
    (hpw : (keysOf old).Pairwise (fun a b => keyLE a b = true)) :
    (keysOf (insertOpt old k v)).Nodup := by
  by_cases hmem : k ∈ keysOf old
  · rw [keysOf_insertOpt_mem old k v hpw hmem]
    exact hold
  · exact ((keysOf_insertOpt_perm old k v hmem).nodup_iff).2
      (List.nodup_cons.2 ⟨hmem, hold⟩)

theorem validOptsB_insertOpt {o : Opts} {k v : Str}
    (ho : validOptsB o = true) (hk : isValidKey k = true)
    (hv : v.all isSegChar = true) (hkp : isProtoKey k = false) :
    validOptsB (insertOpt o k v) = true := by
  obtain ⟨hoe, hond, hopw⟩ := (validOptsB_iff o).1 ho
  rw [validOptsB_iff]
  refine ⟨?_, nodup_keysOf_insertOpt o k v hond hopw,
    pairwise_keysOf_insertOpt o k v hopw⟩
  intro kv hkv
  rcases mem_insertOpt o k v kv hkv with h1 | h1
  · exact hoe kv h1
  · subst h1
    simp [validEntry, hk, hv, hkp]

/-! ### Tuple string lemmas -/

theorem splitOnChar_tupleStr (kv : Str × Str)
    (hkv : validEntry kv = true) :
    splitOnChar '=' (tupleStr kv) = [kv.1, kv.2] := by
  obtain ⟨hk, hv, _⟩ := validEntry_parts hkv
  simp only [isValidKey, Bool.and_eq_true] at hk
  rw [tupleStr, splitOnChar_append _ _ _ (seg_not_mem_eq hk.2),
    splitOnChar_not_mem _ _ (seg_not_mem_eq hv)]

theorem tupleStr_of_two (t : Str) (h : (splitOnChar '=' t).length = 2) :
    tupleStr (keyOfTuple t, valOfTuple t) = t := by
  rcases h2 : splitOnChar '=' t with _ | ⟨a, _ | ⟨b, _ | _⟩⟩ <;>
    rw [h2] at h <;> simp at h
  have hj := joinSep_splitOnChar '=' t
  rw [h2] at hj
  simp only [keyOfTuple, valOfTuple, h2, List.headD_cons, List.drop_one,
    List.tail_cons]
  simpa [tupleStr, joinSep] using hj

theorem not_mem_tupleStr (c : Char) (kv : Str × Str)
    (hkv : validEntry kv = true) (hc : isSegChar c = false) (he : c ≠ '=') :
    c ∉ tupleStr kv := by
  obtain ⟨hk, hv, _⟩ := validEntry_parts hkv
  simp only [isValidKey, Bool.and_eq_true] at hk
  intro hmem
  rcases List.mem_append.1 hmem with h1 | h1
  · rw [List.all_eq_true.1 hk.2 c h1] at hc
    exact Bool.noConfusion hc
  · rcases List.mem_cons.1 h1 with h2 | h2
    · exact he h2
    · rw [List.all_eq_true.1 hv c h2] at hc
      exact Bool.noConfusion hc

theorem mem_joinSep (sep : Char) (parts : List Str) (c : Char)
    (h : c ∈ joinSep sep parts) : c = sep ∨ ∃ p ∈ parts, c ∈ p := by
  induction parts with
  | nil => simp [joinSep] at h
  | cons p ps ih =>
    cases ps with
    | nil =>
      simp only [joinSep] at h
      exact Or.inr ⟨p, by simp, h⟩
    | cons q qs =>
      rw [joinSep] at h
      rcases List.mem_append.1 h with h1 | h1
      · exact Or.inr ⟨p, by simp, h1⟩
      · rcases List.mem_cons.1 h1 with h2 | h2
        · exact Or.inl h2
        · rcases ih h2 with h3 | ⟨r, hr, hcr⟩
          · exact Or.inl h3
          · exact Or.inr ⟨r, List.mem_cons.2 (Or.inr hr), hcr⟩

theorem not_mem_configs (c : Char) (o : Opts)
    (ho : ∀ kv ∈ o, validEntry kv = true)
    (hc : isSegChar c = false) (hsep : c ≠ ',') (he : c ≠ '=') :
    c ∉ joinSep ',' (o.map tupleStr) := by
  intro h
  rcases mem_joinSep ',' (o.map tupleStr) c h with h1 | ⟨p, hp, hcp⟩
  · exact hsep h1
  · obtain ⟨kv, hkv, rfl⟩ := List.mem_map.1 hp
    exact not_mem_tupleStr c kv (ho kv hkv) hc he hcp

theorem configs_ne_nil (o : Opts) (ho : ∀ kv ∈ o, validEntry kv = true)
    (hne : o ≠ []) : joinSep ',' (o.map tupleStr) ≠ [] := by
  rcases o with _ | ⟨⟨k, v⟩, rest⟩
  · exact absurd rfl hne
  · have hk0 := validEntry_parts (ho (k, v) (by simp))
    have hk : k ≠ [] := by
      have := hk0.1
      simp only [isValidKey, Bool.and_eq_true, Bool.not_eq_true',
        List.isEmpty_eq_false] at this
      exact this.1
    cases rest with
    | nil =>
      simp only [List.map_cons, List.map_nil, joinSep, tupleStr]
      intro habs
      rcases k with _ | _
      · simp at hk
      · simp at habs
    | cons kv2 rest2 =>
      simp only [List.map_cons, joinSep]
      intro habs
      rcases k with _ | _
      · simp [tupleStr] at habs
      · simp [tupleStr] at habs

/-! ### parseTuples lemmas -/

theorem parseTuples_cons_step (fqbn t : Str) (rest : List Str) (acc : Opts)
    (k v : Str) (hsplit : (splitOnChar '=' t).take 2 = [k, v])
    (hk : isValidKey k = true) (hv : isValidValue v = true)
    (hkp : isProtoKey k = false) (hlk : lookupOpt acc k = none) :
    parseTuples fqbn (t :: rest) acc =
      parseTuples fqbn rest (insertOpt acc k v) := by
  simp [parseTuples, hsplit, hk, hv, jsGet_non_proto acc k hkp, hlk,
    jsSet_non_proto acc k v hkp]

theorem parseTuples_canonical (fqbn : Str) (o : Opts) :
    ∀ acc : Opts, (∀ kv ∈ o, validEntry kv = true) →
      (keysOf o).Nodup → (∀ k ∈ keysOf o, k ∉ keysOf acc) →
      (keysOf acc ++ keysOf o).Pairwise (fun a b => keyLE a b = true) →
      parseTuples fqbn (o.map tupleStr) acc = .ok (acc ++ o) := by
  induction o with
  | nil => intro acc _ _ _ _; simp [parseTuples]
  | cons kv rest ih =>
    intro acc ho hnd hdisj hpw
    obtain ⟨k, v⟩ := kv
    have hkv := ho (k, v) (List.mem_cons_self _ _)
    obtain ⟨hkvk, hkvv, hkvp⟩ := validEntry_parts hkv
    have hsplit : (splitOnChar '=' (tupleStr (k, v))).take 2 = [k, v] := by
      rw [splitOnChar_tupleStr (k, v) hkv]
      simp
    have hkacc : k ∉ keysOf acc :=
      hdisj k (by simp [keysOf])
    have hlk : lookupOpt acc k = none := (lookupOpt_eq_none_iff acc k).2 hkacc
    have hno : ∀ k1 ∈ keysOf acc, keyLE k1 k = true := by
      intro k1 hk1
      exact (List.pairwise_append.1 hpw).2.2 k1 hk1 k (by simp [keysOf])
    rw [List.map_cons,
      parseTuples_cons_step fqbn _ _ acc k v hsplit hkvk
        (seg_all_isValidValue hkvv) hkvp hlk,
      insertOpt_append acc k v hkacc hno]
    have hnd2 : (keysOf rest).Nodup := by
      simpa [keysOf] using hnd.of_cons
    have hdisj2 : ∀ k2 ∈ keysOf rest, k2 ∉ keysOf (acc ++ [(k, v)]) := by
      intro k2 hk2
      rw [keysOf_append]
      simp only [keysOf, List.map_cons, List.map_nil, List.mem_append,
        List.mem_singleton, not_or]
      refine ⟨fun hin => hdisj k2 (by
        simp only [keysOf, List.map_cons, List.mem_cons]
        exact Or.inr hk2) hin, ?_⟩
      intro hk2k
      subst hk2k
      simp only [keysOf, List.map_cons, List.nodup_cons] at hnd
      exact hnd.1 hk2
    have hpw2 : (keysOf (acc ++ [(k, v)]) ++ keysOf rest).Pairwise
        (fun a b => keyLE a b = true) := by
      rw [keysOf_append]
      simpa [keysOf, List.append_assoc] using hpw
    rw [ih (acc ++ [(k, v)]) (fun kv2 h2 => ho kv2 (List.mem_cons.2 (Or.inr h2)))
      hnd2 hdisj2 hpw2]
    simp

theorem parseTuples_wf (fqbn : Str) : ∀ (tuples : List Str) (acc o : Opts),
    validOptsB acc = true → parseTuples fqbn tuples acc = .ok o →
    validOptsB o = true := by
  intro tuples
  induction tuples with
  | nil =>
    intro acc o hval hp
    simp only [parseTuples, Except.ok.injEq] at hp
    subst hp
    exact hval
  | cons t rest ih =>
    intro acc o hval hp
    rw [parseTuples] at hp
    rcases htk : (splitOnChar '=' t).take 2 with _ | ⟨key, _ | ⟨value, _ | _⟩⟩ <;>
      rw [htk] at hp
    · exact absurd hp (by simp)
    · exact absurd hp (by simp)
    · by_cases hk : isValidKey key
      · by_cases hv : isValidValue value
        · simp only [hk, hv, Bool.not_true, Bool.false_eq_true, if_false] at hp
          have hvseg : value.all isSegChar = true := by
            refine value_no_eq_all_seg hv ?_
            have hmem : value ∈ splitOnChar '=' t := by
              have : value ∈ (splitOnChar '=' t).take 2 := by
                rw [htk]; simp
              exact List.mem_of_mem_take this
            exact mem_splitOnChar_not_mem '=' t value hmem
          rcases hg : jsGet acc key with _ | pv
          · obtain ⟨hlk, hkp⟩ := (jsGet_eq_none_iff acc key).1 hg
            simp only [hg] at hp
            rw [jsSet_non_proto acc key value hkp] at hp
            exact ih _ o (validOptsB_insertOpt hval hk hvseg hkp) hp
          · simp only [hg] at hp
            rcases pv with ev | _
            · have hlk : lookupOpt acc key = some ev :=
                (jsGet_ownStr_iff acc key ev).1 hg
              have hkp : isProtoKey key = false := by
                have hmem := lookupOpt_mem acc key ev hlk
                exact (validEntry_parts
                  (((validOptsB_iff acc).1 hval).1 (key, ev) hmem)).2.2
              rcases hev : ev.isEmpty with _ | _
              · simp only [truthyP, hev, Bool.not_false, if_true] at hp
                exact absurd hp (by simp)
              · simp only [truthyP, hev, Bool.not_true, Bool.false_eq_true,
                  if_false] at hp
                rw [jsSet_non_proto acc key value hkp] at hp
                exact ih _ o (validOptsB_insertOpt hval hk hvseg hkp) hp
            · simp only [truthyP, if_true] at hp
              exact absurd hp (by simp)
        · simp only [hk, hv, Bool.not_true, Bool.false_eq_true, if_false,
            Bool.not_false, if_true] at hp
          exact absurd hp (by simp)
      · simp only [hk, Bool.not_false, if_true] at hp
        exact absurd hp (by simp)
    · have hlen := List.length_take 2 (splitOnChar '=' t)
      rw [htk] at hlen
      simp at hlen
      omega

theorem parseTuples_inv (fqbn : Str) : ∀ (tuples : List Str) (acc o : Opts),
    (∀ t ∈ tuples, (splitOnChar '=' t).length = 2) →
    (tuples.map keyOfTuple).Nodup →
    (∀ t ∈ tuples, keyOfTuple t ∉ keysOf acc) →
    (keysOf acc ++ tuples.map keyOfTuple).Pairwise
      (fun a b => keyLE a b = true) →
    parseTuples fqbn tuples acc = .ok o →
    o = acc ++ tuples.map (fun t => (keyOfTuple t, valOfTuple t)) := by
  intro tuples
  induction tuples with
  | nil =>
    intro acc o _ _ _ _ hp
    simp only [parseTuples, Except.ok.injEq] at hp
    subst hp
    simp
  | cons t rest ih =>
    intro acc o hlen hnd hdisj hpw hp
    have hlt := hlen t (List.mem_cons_self _ _)
    rcases h2 : splitOnChar '=' t with _ | ⟨a, _ | ⟨b, _ | _⟩⟩ <;>
      rw [h2] at hlt <;> simp at hlt
    have hkey : keyOfTuple t = a := by simp [keyOfTuple, h2]
    have hval : valOfTuple t = b := by simp [valOfTuple, h2]
    have htk : (splitOnChar '=' t).take 2 = [a, b] := by rw [h2]; simp
    rw [parseTuples, htk] at hp
    by_cases hk : isValidKey a
    · by_cases hv : isValidValue b
      · simp only [hk, hv, Bool.not_true, Bool.false_eq_true, if_false] at hp
        have hanin : a ∉ keysOf acc := by
          have := hdisj t (List.mem_cons_self _ _)
          rwa [hkey] at this
        have hlka : lookupOpt acc a = none :=
          (lookupOpt_eq_none_iff acc a).2 hanin
        rcases hpk : isProtoKey a with _ | _
        · have hg : jsGet acc a = none := (jsGet_eq_none_iff acc a).2 ⟨hlka, hpk⟩
          simp only [hg] at hp
          rw [jsSet_non_proto acc a b hpk] at hp
          have hno : ∀ k1 ∈ keysOf acc, keyLE k1 a = true := by
            intro k1 hk1
            refine (List.pairwise_append.1 hpw).2.2 k1 hk1 a ?_
            rw [List.map_cons, hkey]
            exact List.mem_cons_self _ _
          rw [insertOpt_append acc a b hanin hno] at hp
          have hnd2 : (rest.map keyOfTuple).Nodup := by
            simpa using hnd.of_cons
          have hdisj2 : ∀ t2 ∈ rest, keyOfTuple t2 ∉ keysOf (acc ++ [(a, b)]) := by
            intro t2 ht2
            rw [keysOf_append]
            simp only [keysOf, List.map_cons, List.map_nil, List.mem_append,
              List.mem_singleton, not_or]
            refine ⟨fun hin => hdisj t2 (List.mem_cons.2 (Or.inr ht2)) hin, ?_⟩
            intro hk2
            simp only [List.map_cons, List.nodup_cons] at hnd
            exact hnd.1 (hkey ▸ hk2 ▸ List.mem_map.2 ⟨t2, ht2, rfl⟩)
          have hpw2 : (keysOf (acc ++ [(a, b)]) ++ rest.map keyOfTuple).Pairwise
              (fun x y => keyLE x y = true) := by
            rw [keysOf_append]
            have hpw3 := hpw
            rw [List.map_cons, hkey] at hpw3
            simpa [keysOf, List.append_assoc] using hpw3
          have := ih (acc ++ [(a, b)]) o
            (fun t2 ht2 => hlen t2 (List.mem_cons.2 (Or.inr ht2))) hnd2 hdisj2
            hpw2 hp
          rw [this, List.map_cons, hkey, hval]
          simp
        · have hg : jsGet acc a = some PropVal.inherited := by
            simp [jsGet, hlka, hpk]
          simp only [hg, truthyP, if_true] at hp
          exact absurd hp (by simp)
      · simp only [hk, hv, Bool.not_true, Bool.false_eq_true, if_false,
          Bool.not_false, if_true] at hp
        exact absurd hp (by simp)
    · simp only [hk, Bool.not_false, if_true] at hp
      exact absurd hp (by simp)

/-! ### Parse / serialize round-trip core -/

theorem parse_serialize_none (v a b : Str) (hv : isValidSegment v = true)
    (ha : isValidSegment a = true) (hb : isValidSegment b = true)
    (hbne : b ≠ []) :
    parseFQBN (serialize v a b none) = .ok ⟨v, a, b, none⟩ := by
  have hsplit : splitOnChar ':' (serialize v a b none) = [v, a, b] := by
    simp only [serialize, List.isEmpty_nil, if_true, List.append_nil,
      List.cons_append, List.append_assoc]
    rw [splitOnChar_append ':' v _ (seg_not_mem_colon hv),
      splitOnChar_append ':' a _ (seg_not_mem_colon ha),
      splitOnChar_not_mem ':' b (seg_not_mem_colon hb)]
  rw [parseFQBN, hsplit]
  simp [hv, ha, hb, List.isEmpty_eq_false.2 hbne]

theorem parse_serialize_some (v a b : Str) (o : Opts)
    (hv : isValidSegment v = true) (ha : isValidSegment a = true)
    (hb : isValidSegment b = true) (hbne : b ≠ [])
    (ho : validOptsB o = true) (hone : o ≠ []) :
    parseFQBN (serialize v a b (some o)) = .ok ⟨v, a, b, some o⟩ := by
  obtain ⟨hoe, hond, hopw⟩ := (validOptsB_iff o).1 ho
  have hccol : ':' ∉ joinSep ',' (o.map tupleStr) :=
    not_mem_configs ':' o hoe (by decide) (by decide) (by decide)
  have hcne : joinSep ',' (o.map tupleStr) ≠ [] := configs_ne_nil o hoe hone
  have hsplit : splitOnChar ':' (serialize v a b (some o)) =
      [v, a, b, joinSep ',' (o.map tupleStr)] := by
    simp only [serialize, List.isEmpty_eq_false.2 hcne, Bool.false_eq_true,
      if_false, List.cons_append, List.append_assoc]
    rw [splitOnChar_append ':' v _ (seg_not_mem_colon hv),
      splitOnChar_append ':' a _ (seg_not_mem_colon ha),
      splitOnChar_append ':' b _ (seg_not_mem_colon hb),
      splitOnChar_not_mem ':' _ hccol]
  have hsplitComma : splitOnChar ',' (joinSep ',' (o.map tupleStr)) =
      o.map tupleStr := by
    refine splitOnChar_joinSep ',' (o.map tupleStr)
      (by simpa using hone) ?_
    intro p hp
    obtain ⟨kv, hkv, rfl⟩ := List.mem_map.1 hp
    exact not_mem_tupleStr ',' kv (hoe kv hkv) (by decide) (by decide)
  have htuples := parseTuples_canonical (serialize v a b (some o)) o [] hoe hond
    (by simp [keysOf]) (by simpa [keysOf] using hopw)
  rw [parseFQBN, hsplit]
  simp only [hv, ha, hb, Bool.and_self, if_true,
    List.isEmpty_eq_false.2 hbne, Bool.false_eq_true, if_false, hsplitComma,
    htuples, List.nil_append, List.isEmpty_eq_false.2 hone]

theorem serialize_some_nil (v a b : Str) :
    serialize v a b (some []) = serialize v a b none := rfl

theorem parse_wf (s : Str) (f : FQBN) (h : parseFQBN s = .ok f) :
    wellformedB f = true := by
  rw [parseFQBN] at h
  split at h
  · split at h
    · split at h
      · simp at h
      · rename_i hval hbe
        simp only [Except.ok.injEq] at h
        subst h
        simp only [Bool.and_eq_true] at hval
        simp only [Bool.not_eq_true] at hbe
        simp [wellformedB, wellformedOptsB, hval, hbe]
    · simp at h
  · split at h
    · split at h
      · simp at h
      · rename_i hval hbe
        rcases hpt : parseTuples s (splitOnChar ',' _) [] with e | options <;>
          rw [hpt] at h
        · simp at h
        · simp only [Except.ok.injEq] at h
          subst h
          simp only [Bool.and_eq_true] at hval
          simp only [Bool.not_eq_true] at hbe
          have hwf := parseTuples_wf s _ [] options (by decide) hpt
          rcases hoe : options.isEmpty with _ | _
          · simp [wellformedB, wellformedOptsB, hval, hbe, hoe, hwf]
          · simp [wellformedB, wellformedOptsB, hval, hbe, hoe]
    · simp at h
  · simp at h

theorem wellformedB_parts {x : FQBN} (h : wellformedB x = true) :
    isValidSegment x.vendor = true ∧ isValidSegment x.arch = true ∧
      isValidSegment x.boardId = true ∧ x.boardId ≠ [] ∧
      wellformedOptsB x.options = true := by
  simp only [wellformedB, Bool.and_eq_true, Bool.not_eq_true',
    List.isEmpty_eq_false] at h
  tauto

theorem wellformedB_opts {x : FQBN} {o : Opts} (h : wellformedB x = true)
    (ho : x.options = some o) : o ≠ [] ∧ validOptsB o = true := by
  have h5 := (wellformedB_parts h).2.2.2.2
  rw [ho, wellformedOptsB] at h5
  simp only [Bool.and_eq_true, Bool.not_eq_true', List.isEmpty_eq_false] at h5
  exact h5

theorem parse_toStr (x : FQBN) (hx : wellformedB x = true) :
    parseFQBN x.toStr = .ok x := by
  obtain ⟨xv, xa, xb, xo⟩ := x
  obtain ⟨h1, h2, h3, h4, h5⟩ := wellformedB_parts hx
  rcases xo with _ | o
  · exact parse_serialize_none xv xa xb h1 h2 h3 h4
  · have ho := wellformedB_opts hx rfl
    exact parse_serialize_some xv xa xb o h1 h2 h3 h4 ho.2 ho.1

theorem hasConfigOptions_iff (x : FQBN) (hx : wellformedB x = true) :
    hasConfigOptions x = true ↔ x.options ≠ none := by
  rcases ho : x.options with _ | o
  · simp [hasConfigOptions, ho]
  · have := (wellformedB_opts hx ho).1
    simp [hasConfigOptions, ho, this]

theorem sanitizeE_wf (x : FQBN) (hx : wellformedB x = true) :
    x.sanitizeE = .ok ⟨x.vendor, x.arch, x.boardId, none⟩ := by
  obtain ⟨h1, h2, h3, h4, _⟩ := wellformedB_parts hx
  rw [FQBN.sanitizeE]
  rcases ho : x.options with _ | o
  · obtain ⟨xv, xa, xb, xo⟩ := x
    simp only at ho
    subst ho
    simp [hasConfigOptions]
  · have hne := (wellformedB_opts hx ho).1
    simp only [hasConfigOptions, ho, List.isEmpty_eq_false.2 hne,
      Bool.not_false, if_true]
    have : x.toStr true = serialize x.vendor x.arch x.boardId none := rfl
    rw [this]
    exact parse_serialize_none _ _ _ h1 h2 h3 h4

/-! ### Overlay (merge) lemmas -/

theorem keysOf_mapValues (r : Opts) (g : Str × Str → Str) :
    keysOf (r.map fun kv => (kv.1, g kv)) = keysOf r := by
  simp [keysOf, List.map_map, Function.comp]

theorem keysOf_overlayOpts (old res : Opts) :
    keysOf (overlayOpts old res) =
      keysOf old ++
        keysOf (res.filter (fun kv => (lookupOpt old kv.1).isNone)) := by
  rw [overlayOpts, keysOf_append, keysOf_mapValues]

theorem overlayOpts_nil (old : Opts) : overlayOpts old [] = old := by
  rw [overlayOpts]
  simp only [List.filter_nil, List.append_nil, lookupOpt, Option.getD_none]
  calc old.map (fun kv => (kv.1, kv.2))
      = old.map id := List.map_congr_left (fun kv _ => rfl)
    _ = old := List.map_id old

theorem overlayOpts_eq_self (old res : Opts) (hold : (keysOf old).Nodup)
    (hall : ∀ kv ∈ res, lookupOpt old kv.1 = some kv.2) :
    overlayOpts old res = old := by
  rw [overlayOpts]
  have hfilter : res.filter (fun kv => (lookupOpt old kv.1).isNone) = [] := by
    rw [List.filter_eq_nil_iff]
    intro kv hkv
    rw [hall kv hkv]
    simp
  rw [hfilter, List.append_nil]
  have hmap : ∀ kv ∈ old, (kv.1, (lookupOpt res kv.1).getD kv.2) = kv := by
    intro kv hkv
    rcases hres : lookupOpt res kv.1 with _ | v1
    · simp
    · have h1 : (kv.1, v1) ∈ res := lookupOpt_mem res kv.1 v1 hres
      have h2 : lookupOpt old kv.1 = some v1 := hall (kv.1, v1) h1
      have h3 : lookupOpt old kv.1 = some kv.2 := mem_lookupOpt old kv.1 kv.2 hold hkv
      rw [h2] at h3
      injection h3 with h3
      simp [h3]
  calc old.map (fun kv => (kv.1, (lookupOpt res kv.1).getD kv.2))
      = old.map id := List.map_congr_left hmap
    _ = old := List.map_id old

theorem insertOpt_eq_map (old : Opts) (k v : Str)
    (hold : (keysOf old).Nodup)
    (hpw : (keysOf old).Pairwise (fun a b => keyLE a b = true))
    (hmem : k ∈ keysOf old) :
    insertOpt old k v = old.map (fun kv => if kv.1 = k then (k, v) else kv) := by
  induction old with
  | nil => simp [keysOf] at hmem
  | cons kv1 rest ih =>
    obtain ⟨k1, v1⟩ := kv1
    simp only [keysOf, List.map_cons, List.nodup_cons] at hold
    simp only [keysOf, List.map_cons, List.pairwise_cons] at hpw
    by_cases hk : k1 = k
    · subst hk
      rw [insertOpt, if_pos rfl, List.map_cons]
      simp only [if_pos rfl]
      have : rest.map (fun kv => if kv.1 = k1 then (k1, v) else kv) = rest := by
        calc rest.map (fun kv => if kv.1 = k1 then (k1, v) else kv)
            = rest.map id := by
              apply List.map_congr_left
              intro kv2 hkv2
              have : kv2.1 ≠ k1 := by
                intro hx
                exact hold.1 (hx ▸ List.mem_map.2 ⟨kv2, hkv2, rfl⟩)
              simp [this]
          _ = rest := List.map_id rest
      rw [this]
      simp
    · simp only [keysOf, List.map_cons, List.mem_cons] at hmem
      rcases hmem with h1 | h1
      · exact absurd h1.symm hk
      · have hb : insertBefore k k1 = false :=
          (insertBefore_eq_false_iff k k1).2 (hpw.1 k h1)
        rw [insertOpt, if_neg hk, if_neg (by simp [hb]), List.map_cons,
          if_neg hk, ih (by simpa [keysOf] using hold.2)
            (by simpa [keysOf] using hpw.2) h1]

theorem overlayOpts_cons_eq (old res : Opts) (k v : Str)
    (hold : (keysOf old).Nodup) (h : lookupOpt old k = some v)
    (hk : k ∉ keysOf res) :
    overlayOpts old ((k, v) :: res) = overlayOpts old res := by
  rw [overlayOpts, overlayOpts]
  congr 1
  · apply List.map_congr_left
    intro kv hkv
    by_cases hkk : kv.1 = k
    · have h2 : lookupOpt old kv.1 = some kv.2 :=
        mem_lookupOpt old kv.1 kv.2 hold hkv
      rw [hkk, h] at h2
      injection h2 with h2
      rw [lookupOpt, if_pos hkk.symm]
      rw [hkk, (lookupOpt_eq_none_iff res k).2 hk]
      simp [h2]
    · rw [lookupOpt, if_neg (fun hx => hkk hx.symm)]
  · rw [List.filter_cons]
    simp [h]

theorem overlayOpts_cons_insert (old res : Opts) (k v : Str)
    (hold : (keysOf old).Nodup)
    (hpw : (keysOf old).Pairwise (fun a b => keyLE a b = true))
    (hni : isArrayIndex k = false) (hk : k ∉ keysOf res) :
    overlayOpts old ((k, v) :: res) = overlayOpts (insertOpt old k v) res := by
  by_cases hmem : k ∈ keysOf old
  · rw [overlayOpts, overlayOpts]
    congr 1
    · rw [insertOpt_eq_map old k v hold hpw hmem, List.map_map]
      apply List.map_congr_left
      intro kv hkv
      simp only [Function.comp]
      by_cases hkk : kv.1 = k
      · rw [lookupOpt, if_pos hkk.symm, if_pos hkk]
        simp only [Option.getD_some]
        rw [(lookupOpt_eq_none_iff res k).2 hk]
        simp [hkk]
      · rw [lookupOpt, if_neg (fun hx => hkk hx.symm), if_neg hkk]
    · rw [List.filter_cons]
      have : (lookupOpt old k).isNone = false := by
        rcases hl : lookupOpt old k with _ | w
        · exact absurd ((lookupOpt_eq_none_iff old k).1 hl) (by simpa using hmem)
        · rfl
      simp only [this, Bool.false_eq_true, if_false]
      apply List.filter_congr
      intro kv hkv
      have hne : k ≠ kv.1 := by
        intro hx
        exact hk (hx ▸ List.mem_map.2 ⟨kv, hkv, rfl⟩)
      rw [lookupOpt_insertOpt_ne old k v kv.1 hne]
  · rw [insertOpt_of_not_mem old k v hmem hni, overlayOpts, overlayOpts]
    rw [List.filter_cons]
    have hnone : lookupOpt old k = none := (lookupOpt_eq_none_iff old k).2 hmem
    simp only [hnone, Option.isNone_none, if_true]
    rw [List.map_append]
    have hmap : old.map
          (fun kv => (kv.1, (lookupOpt ((k, v) :: res) kv.1).getD kv.2)) =
        old.map (fun kv => (kv.1, (lookupOpt res kv.1).getD kv.2)) := by
      apply List.map_congr_left
      intro kv hkv
      have hkk : kv.1 ≠ k := by
        intro hx
        exact hmem (hx ▸ List.mem_map.2 ⟨kv, hkv, rfl⟩)
      rw [lookupOpt, if_neg (fun hx => hkk hx.symm)]
    rw [hmap]
    have hsingle : List.map
          (fun kv => (kv.1, (lookupOpt res kv.1).getD kv.2)) [(k, v)] =
        [(k, v)] := by
      simp only [List.map_cons, List.map_nil]
      rw [(lookupOpt_eq_none_iff res k).2 hk]
      rfl
    rw [hsingle]
    have hfilter : res.filter
          (fun kv => (lookupOpt (old ++ [(k, v)]) kv.1).isNone) =
        res.filter (fun kv => (lookupOpt old kv.1).isNone) := by
      apply List.filter_congr
      intro kv hkv
      have hkk : kv.1 ≠ k := by
        intro hx
        exact hk (hx ▸ List.mem_map.2 ⟨kv, hkv, rfl⟩)
      by_cases hin : kv.1 ∈ keysOf old
      · rw [lookupOpt_append_left old _ kv.1 hin]
      · rw [lookupOpt_append_right old _ kv.1 hin,
          (lookupOpt_eq_none_iff old kv.1).2 hin, lookupOpt,
          if_neg (fun hx => hkk hx.symm)]
        rfl
    rw [hfilter]
    simp [List.append_assoc]

theorem applyUpdates_spec (res : Opts) : ∀ old : Opts,
    (keysOf old).Nodup →
    (keysOf old).Pairwise (fun a b => keyLE a b = true) →
    (keysOf res).Nodup →
    (∀ kv ∈ res, isProtoKey kv.1 = false) →
    (∀ kv ∈ res, isArrayIndex kv.1 = false) →
    applyUpdates old res =
      (overlayOpts old res,
        !res.all (fun kv => lookupOpt old kv.1 == some kv.2)) := by
  induction res with
  | nil =>
    intro old hold _ _ _ _
    rw [applyUpdates, overlayOpts_nil]
    simp
  | cons kv rest ih =>
    intro old hold holdpw hres hproto hidx
    obtain ⟨k, v⟩ := kv
    simp only [keysOf, List.map_cons, List.nodup_cons] at hres
    have hkres : k ∉ keysOf rest := by simpa [keysOf] using hres.1
    have hres2 : (keysOf rest).Nodup := by simpa [keysOf] using hres.2
    have hkp : isProtoKey k = false := hproto (k, v) (List.mem_cons_self _ _)
    have hki : isArrayIndex k = false := hidx (k, v) (List.mem_cons_self _ _)
    have hproto2 : ∀ kv2 ∈ rest, isProtoKey kv2.1 = false :=
      fun kv2 h2 => hproto kv2 (List.mem_cons.2 (Or.inr h2))
    have hidx2 : ∀ kv2 ∈ rest, isArrayIndex kv2.1 = false :=
      fun kv2 h2 => hidx kv2 (List.mem_cons.2 (Or.inr h2))
    rw [applyUpdates]
    by_cases h : lookupOpt old k = some v
    · rw [if_pos (by rw [jsGet_non_proto old k hkp, h]; rfl),
        ih old hold holdpw hres2 hproto2 hidx2,
        overlayOpts_cons_eq old rest k v hold h hkres]
      simp [h]
    · rw [if_neg (fun h0 => h ((jsGet_ownStr_iff old k v).1 h0)),
        jsSet_non_proto old k v hkp,
        ih (insertOpt old k v) (nodup_keysOf_insertOpt old k v hold holdpw)
          (pairwise_keysOf_insertOpt old k v holdpw) hres2 hproto2 hidx2,
        ← overlayOpts_cons_insert old rest k v hold holdpw hki hkres]
      simp only [List.all_cons]
      have hbeq : (lookupOpt old k == some v) = false := by simpa using h
      rw [hbeq]
      simp

theorem overlayOpts_nil_left (res : Opts) : overlayOpts [] res = res := by
  rw [overlayOpts]
  simp only [List.map_nil, List.nil_append, lookupOpt, Option.isNone_none]
  exact List.filter_true res

theorem overlayOpts_ne_nil (old res : Opts) (h : old ≠ [] ∨ res ≠ []) :
    overlayOpts old res ≠ [] := by
  rcases old with _ | ⟨kv, rest⟩
  · rw [overlayOpts_nil_left]
    rcases h with h | h
    · exact absurd rfl h
    · exact h
  · rw [overlayOpts]
    simp

theorem pairwise_keyLE_of_nonidx {l : List Str}
    (h : ∀ b ∈ l, isArrayIndex b = false) :
    l.Pairwise (fun a b => keyLE a b = true) := by
  induction l with
  | nil => exact List.Pairwise.nil
  | cons a l ih =>
    refine List.pairwise_cons.2
      ⟨?_, ih (fun b hb => h b (List.mem_cons.2 (Or.inr hb)))⟩
    intro b hb
    exact keyLE_of_nonidx_right (h b (List.mem_cons.2 (Or.inr hb)))

theorem validOptsB_overlayOpts (old res : Opts)
    (hold : validOptsB old = true)
    (hres : ∀ kv ∈ res, validEntry kv = true)
    (hresnd : (keysOf res).Nodup)
    (hresidx : ∀ kv ∈ res, isArrayIndex kv.1 = false) :
    validOptsB (overlayOpts old res) = true := by
  obtain ⟨holde, holdnd, holdpw⟩ := (validOptsB_iff old).1 hold
  have hfilidx : ∀ b ∈ keysOf (res.filter fun kv =>
      (lookupOpt old kv.1).isNone), isArrayIndex b = false := by
    intro b hb
    simp only [keysOf, List.mem_map] at hb
    obtain ⟨kv, hkv, rfl⟩ := hb
    exact hresidx kv (List.mem_filter.1 hkv).1
  rw [validOptsB_iff]
  refine ⟨?_, ?_, ?_⟩
  · intro kv hkv
    rw [overlayOpts] at hkv
    rcases List.mem_append.1 hkv with h1 | h1
    · obtain ⟨kv0, hkv0, rfl⟩ := List.mem_map.1 h1
      rcases hl : lookupOpt res kv0.1 with _ | w
      · simpa [validEntry, hl] using holde kv0 hkv0
      · have hw : (kv0.1, w) ∈ res := lookupOpt_mem res kv0.1 w hl
        simpa [hl] using hres (kv0.1, w) hw
    · exact hres kv (List.mem_filter.1 h1).1
  · rw [keysOf_overlayOpts]
    refine List.nodup_append.2 ⟨holdnd, ?_, ?_⟩
    · have hsub : (keysOf (res.filter fun kv =>
          (lookupOpt old kv.1).isNone)).Sublist (keysOf res) := by
        simp only [keysOf]
        exact (List.filter_sublist res).map Prod.fst
      exact hsub.nodup hresnd
    · intro x hx1 hx2
      simp only [keysOf, List.mem_map] at hx2
      obtain ⟨kv, hkv, rfl⟩ := hx2
      have h2 := (List.mem_filter.1 hkv).2
      simp only [Option.isNone_iff_eq_none] at h2
      exact ((lookupOpt_eq_none_iff old kv.1).1 h2) hx1
  · rw [keysOf_overlayOpts, List.pairwise_append]
    exact ⟨holdpw, pairwise_keyLE_of_nonidx hfilidx,
      fun a _ b hb => keyLE_of_nonidx_right (hfilidx b hb)⟩

/-! ### Descriptor resolution lemmas -/

theorem validDescList_parts {l : List ConfigOption} (h : validDescList l = true) :
    (∀ co ∈ l, (co.values.filter (fun v => v.selected)).length = 1 ∧
      isValidKey co.option = true ∧ (selValue co).all isSegChar = true ∧
      isProtoKey co.option = false) ∧
    (l.map (fun co => co.option)).Nodup := by
  simp only [validDescList, Bool.and_eq_true, List.all_eq_true,
    decide_eq_true_eq, beq_iff_eq, Bool.not_eq_true'] at h
  refine ⟨fun co hco => ?_, h.2⟩
  obtain ⟨⟨⟨h1, h2⟩, h3⟩, h4⟩ := h.1 co hco
  exact ⟨h1, h2, List.all_eq_true.2 h3, h4⟩

theorem keysOf_descPairs (l : List ConfigOption) :
    keysOf (descPairs l) = l.map (fun co => co.option) := by
  simp [keysOf, descPairs, List.map_map, Function.comp]

theorem resolveNewOptions_ok (s : Str) : ∀ (l : List ConfigOption) (acc : Opts),
    (∀ co ∈ l, (co.values.filter (fun v => v.selected)).length = 1) →
    ((l.map (fun co => co.option)).Nodup) →
    (∀ co ∈ l, co.option ∉ keysOf acc) →
    (∀ co ∈ l, isProtoKey co.option = false) →
    (∀ co ∈ l, isArrayIndex co.option = false) →
    resolveNewOptions s l acc = .ok (acc ++ descPairs l) := by
  intro l
  induction l with
  | nil =>
    intro acc _ _ _ _ _
    simp [resolveNewOptions, descPairs]
  | cons co rest ih =>
    intro acc hsel hnd hacc hproto hidx
    obtain ⟨sel, hfil⟩ :=
      List.length_eq_one.1 (hsel co (List.mem_cons_self _ _))
    have hselv : selValue co = sel.value := by
      simp [selValue, hfil]
    have hnotin : co.option ∉ keysOf acc := hacc co (List.mem_cons_self _ _)
    have hp1 : isProtoKey co.option = false := hproto co (List.mem_cons_self _ _)
    have hg : jsGet acc co.option = none :=
      (jsGet_eq_none_iff acc co.option).2
        ⟨(lookupOpt_eq_none_iff acc co.option).2 hnotin, hp1⟩
    rw [resolveNewOptions]
    simp only [hfil, hg]
    rw [jsSet_non_proto acc co.option sel.value hp1,
      insertOpt_of_not_mem acc co.option sel.value hnotin
        (hidx co (List.mem_cons_self _ _))]
    simp only [List.map_cons, List.nodup_cons] at hnd
    have hacc2 : ∀ co2 ∈ rest, co2.option ∉ keysOf (acc ++ [(co.option, sel.value)]) := by
      intro co2 hco2
      rw [keysOf_append]
      simp only [keysOf, List.map_cons, List.map_nil, List.mem_append,
        List.mem_singleton, not_or]
      refine ⟨fun hin => hacc co2 (List.mem_cons.2 (Or.inr hco2)) hin, ?_⟩
      intro heq2
      exact hnd.1 (heq2 ▸ List.mem_map.2 ⟨co2, hco2, rfl⟩)
    rw [ih (acc ++ [(co.option, sel.value)])
      (fun co2 h2 => hsel co2 (List.mem_cons.2 (Or.inr h2))) hnd.2 hacc2
      (fun co2 h2 => hproto co2 (List.mem_cons.2 (Or.inr h2)))
      (fun co2 h2 => hidx co2 (List.mem_cons.2 (Or.inr h2)))]
    simp [descPairs, hselv, List.append_assoc]

/-! ### withConfigOptions master lemma -/

theorem validOptsB_getD (x : FQBN) (hx : wellformedB x = true) :
    validOptsB (x.options.getD []) = true := by
  rcases ho : x.options with _ | o
  · rfl
  · exact (wellformedB_opts hx ho).2

theorem descPairs_validEntry {l : List ConfigOption}
    (hl : validDescList l = true) :
    ∀ kv ∈ descPairs l, validEntry kv = true := by
  intro kv hkv
  obtain ⟨co, hco, rfl⟩ := List.mem_map.1 hkv
  have h := (validDescList_parts hl).1 co hco
  simp [validEntry, h.2.1, h.2.2.1, h.2.2.2]

theorem withConfigOptions_spec (x : FQBN) (l : List ConfigOption)
    (hx : wellformedB x = true) (hl : validDescList l = true)
    (hidx : ∀ co ∈ l, isArrayIndex co.option = false) :
    x.withConfigOptions l =
      if (descPairs l).all
          (fun kv => lookupOpt (x.options.getD []) kv.1 == some kv.2) then
        .ok x
      else
        .ok ⟨x.vendor, x.arch, x.boardId,
          some (overlayOpts (x.options.getD []) (descPairs l))⟩ := by
  have holdv := validOptsB_getD x hx
  obtain ⟨holde, holdnd, holdpw⟩ := (validOptsB_iff _).1 holdv
  obtain ⟨hpsel, hpnd⟩ := validDescList_parts hl
  obtain ⟨h1, h2, h3, h4, _⟩ := wellformedB_parts hx
  have hdproto : ∀ kv ∈ descPairs l, isProtoKey kv.1 = false := by
    intro kv hkv
    obtain ⟨co, hco, rfl⟩ := List.mem_map.1 hkv
    exact (hpsel co hco).2.2.2
  have hdidx : ∀ kv ∈ descPairs l, isArrayIndex kv.1 = false := by
    intro kv hkv
    obtain ⟨co, hco, rfl⟩ := List.mem_map.1 hkv
    exact hidx co hco
  rw [FQBN.withConfigOptions]
  rcases hle : l.isEmpty with _ | _
  · have hlne : l ≠ [] := List.isEmpty_eq_false.1 hle
    simp only [Bool.false_eq_true, if_false]
    have hres := resolveNewOptions_ok (x.toStr) l []
      (fun co hco => (hpsel co hco).1) hpnd (by simp [keysOf])
      (fun co hco => (hpsel co hco).2.2.2) hidx
    simp only [hres, List.nil_append]
    have hnd2 : (keysOf (descPairs l)).Nodup := by
      rw [keysOf_descPairs]; exact hpnd
    rw [applyUpdates_spec (descPairs l) (x.options.getD []) holdnd holdpw hnd2
      hdproto hdidx]
    rcases hall : (descPairs l).all
        (fun kv => lookupOpt (x.options.getD []) kv.1 == some kv.2) with _ | _
    · simp only [hall, Bool.not_false, Bool.not_true, Bool.false_eq_true,
        if_false]
      have hover : validOptsB
          (overlayOpts (x.options.getD []) (descPairs l)) = true :=
        validOptsB_overlayOpts _ _ holdv (descPairs_validEntry hl) hnd2 hdidx
      have hovne : overlayOpts (x.options.getD []) (descPairs l) ≠ [] := by
        refine overlayOpts_ne_nil _ _ (Or.inr ?_)
        simpa [descPairs] using hlne
      exact parse_serialize_some x.vendor x.arch x.boardId _ h1 h2 h3 h4
        hover hovne
    · simp [hall]
  · have hlnil : l = [] := by
      cases l with
      | nil => rfl
      | cons a as => simp at hle
    subst hlnil
    simp [descPairs]

theorem resolveNewOptions_single (s k v : Str) (hkp : isProtoKey k = false) :
    resolveNewOptions s [⟨k, [⟨v, true⟩]⟩] [] = .ok [(k, v)] := by
  have hg : jsGet [] k = none := (jsGet_eq_none_iff [] k).2 ⟨rfl, hkp⟩
  simp [resolveNewOptions, List.filter_cons, hg,
    jsSet_non_proto [] k v hkp, insertOpt]

theorem withConfigOptions_single (x : FQBN) (k v : Str)
    (hx : wellformedB x = true) (hk : isValidKey k = true)
    (hv : v.all isSegChar = true) (hkp : isProtoKey k = false) :
    x.withConfigOptions [⟨k, [⟨v, true⟩]⟩] =
      if lookupOpt (x.options.getD []) k = some v then .ok x
      else .ok ⟨x.vendor, x.arch, x.boardId,
        some (insertOpt (x.options.getD []) k v)⟩ := by
  have holdv := validOptsB_getD x hx
  obtain ⟨h1, h2, h3, h4, _⟩ := wellformedB_parts hx
  rw [FQBN.withConfigOptions]
  simp only [List.isEmpty_cons, Bool.false_eq_true, if_false,
    resolveNewOptions_single (x.toStr) k v hkp]
  by_cases hlk : lookupOpt (x.options.getD []) k = some v
  · rw [if_pos hlk]
    have hg : jsGet (x.options.getD []) k = some (.ownStr v) :=
      (jsGet_ownStr_iff _ k v).2 hlk
    simp [applyUpdates, hg]
  · rw [if_neg hlk]
    have hg : ¬jsGet (x.options.getD []) k = some (.ownStr v) :=
      fun h0 => hlk ((jsGet_ownStr_iff _ k v).1 h0)
    simp only [applyUpdates, if_neg hg, jsSet_non_proto _ k v hkp,
      Bool.not_true, Bool.false_eq_true, if_false]
    exact parse_serialize_some x.vendor x.arch x.boardId _ h1 h2 h3 h4
      (validOptsB_insertOpt holdv hk hv hkp) (insertOpt_ne_nil _ k v)

/-! ### Canonical round-trip (serialize after parse) -/

theorem toStr_parse_canonical (s : Str) (f : FQBN)
    (h : parseFQBN s = .ok f) (hc : canonicalRawB s = true) : f.toStr = s := by
  rw [parseFQBN] at h
  split at h
  · split at h
    · split at h
      · simp at h
      · rename_i heq hval hbe
        simp only [Except.ok.injEq] at h
        subst h
        have hjoin := joinSep_splitOnChar ':' s
        rw [heq] at hjoin
        simp only [joinSep] at hjoin
        simpa [FQBN.toStr, serialize, joinSep, List.cons_append,
          List.append_assoc] using hjoin
    · simp at h
  · split at h
    · split at h
      · simp at h
      · rename_i heq hval hbe
        rcases hpt : parseTuples s (splitOnChar ',' _) [] with e | options <;>
          rw [hpt] at h
        · simp at h
        · simp only [Except.ok.injEq] at h
          subst h
          rename_i rest
          have hcomp : canonicalRawB s = true := hc
          rw [canonicalRawB] at hcomp
          rw [heq] at hcomp
          simp only [Bool.and_eq_true, List.all_eq_true, decide_eq_true_eq,
            beq_iff_eq] at hcomp
          obtain ⟨⟨htl, hnd⟩, hpw⟩ := hcomp
          have hoptions := parseTuples_inv s (splitOnChar ',' rest) [] options
            htl hnd (by simp [keysOf]) (by simpa [keysOf] using hpw) hpt
          simp only [List.nil_append] at hoptions
          have htne : splitOnChar ',' rest ≠ [] := splitOnChar_ne_nil ',' rest
          have hone : options ≠ [] := by
            rw [hoptions]
            simpa using htne
          have hmapback : options.map tupleStr = splitOnChar ',' rest := by
            rw [hoptions, List.map_map]
            calc (splitOnChar ',' rest).map
                  (tupleStr ∘ fun t => (keyOfTuple t, valOfTuple t))
                = (splitOnChar ',' rest).map id := by
                  apply List.map_congr_left
                  intro t ht
                  exact tupleStr_of_two t (htl t ht)
              _ = splitOnChar ',' rest := List.map_id _
          have hrest : joinSep ',' (options.map tupleStr) = rest := by
            rw [hmapback, joinSep_splitOnChar]
          have hrne : rest ≠ [] := by
            intro hr
            subst hr
            have := htl [] (by simp [splitOnChar])
            simp [splitOnChar] at this
          have hjoin := joinSep_splitOnChar ':' s
          rw [heq] at hjoin
          simp only [joinSep] at hjoin
          simp only [List.isEmpty_eq_false.2 hone, Bool.false_eq_true,
            if_false]
          simpa [FQBN.toStr, serialize, hrest,
            List.isEmpty_eq_false.2 hrne, List.cons_append,
            List.append_assoc] using hjoin
    · simp at h
  · simp at h

/-! ### Equality lemmas -/

theorem optionsDeepEqual_iff (a b : Opts) (hna : (keysOf a).Nodup)
    (hnb : (keysOf b).Nodup) :
    optionsDeepEqual (some a) (some b) = true ↔
      ∀ p : Str × Str, p ∈ a ↔ p ∈ b := by
  rw [optionsDeepEqual]
  simp only [Bool.and_eq_true, List.all_eq_true, beq_iff_eq]
  constructor
  · rintro ⟨hab, hba⟩ p
    exact ⟨fun hp => lookupOpt_mem b p.1 p.2 (hab p hp),
      fun hp => lookupOpt_mem a p.1 p.2 (hba p hp)⟩
  · intro h
    exact ⟨fun kv hkv => mem_lookupOpt b kv.1 kv.2 hnb ((h kv).1 hkv),
      fun kv hkv => mem_lookupOpt a kv.1 kv.2 hna ((h kv).2 hkv)⟩

theorem equalsB_iff (x y : FQBN) (hx : wellformedB x = true)
    (hy : wellformedB y = true) :
    x.equalsB y = true ↔
      x.vendor = y.vendor ∧ x.arch = y.arch ∧ x.boardId = y.boardId ∧
        sameOptionPairs x.options y.options := by
  rw [FQBN.equalsB]
  simp only [Bool.and_eq_true, beq_iff_eq, and_assoc]
  refine and_congr_right fun _ => and_congr_right fun _ =>
    and_congr_right fun _ => ?_
  rcases hxo : x.options with _ | a <;> rcases hyo : y.options with _ | b
  · simp [optionsDeepEqual, sameOptionPairs]
  · simp [optionsDeepEqual, sameOptionPairs]
  · simp [optionsDeepEqual, sameOptionPairs]
  · have hna := ((validOptsB_iff a).1 (wellformedB_opts hx hxo).2).2.1
    have hnb := ((validOptsB_iff b).1 (wellformedB_opts hy hyo).2).2.1
    rw [sameOptionPairs]
    exact optionsDeepEqual_iff a b hna hnb

/-! ### Claim theorems -/

/-- C6: for every valid 3-segment base followed by a bare trailing colon,
construction fails with the configuration error produced by tuple
validation on the single empty tuple (never an identifier without
options). -/
theorem c6_empty_options_block (V A D : Str) (hV : isValidSegment V = true)
    (hA : isValidSegment A = true) (hD : isValidSegment D = true)
    (hDne : D ≠ []) :
    parseFQBN (V ++ ':' :: A ++ ':' :: D ++ [':']) =
      .error (.configOption (V ++ ':' :: A ++ ':' :: D ++ [':'])
        (.invalidTuple [])) := by
  have hsplit : splitOnChar ':' (V ++ ':' :: A ++ ':' :: D ++ [':']) =
      [V, A, D, []] := by
    simp only [List.cons_append, List.append_assoc]
    rw [splitOnChar_append ':' V _ (seg_not_mem_colon hV),
      splitOnChar_append ':' A _ (seg_not_mem_colon hA),
      show (D ++ [':'] : Str) = D ++ ':' :: [] from rfl,
      splitOnChar_append ':' D [] (seg_not_mem_colon hD)]
    rfl
  rw [parseFQBN, hsplit]
  simp only [hV, hA, hD, Bool.and_self, if_true,
    List.isEmpty_eq_false.2 hDne, Bool.false_eq_true, if_false]
  rfl

/-- C6 (witness): the concrete string a:b:c: is rejected with the
configuration error on the empty tuple. -/
theorem c6_empty_options_block_witness :
    isValidSegment (str ("a")) = true ∧ (str ("c")) ≠ [] ∧
    parseFQBN (str ("a") ++ ':' :: str ("b") ++ ':' :: str ("c") ++ [':']) =
      .error (.configOption
        (str ("a") ++ ':' :: str ("b") ++ ':' :: str ("c") ++ [':'])
        (.invalidTuple [])) :=
  ⟨by decide, by decide,
    c6_empty_options_block (str ("a")) (str ("b")) (str ("c"))
      (by decide) (by decide) (by decide) (by decide)⟩

/-- C3: at the failing input a:b:c:o1=,o1=v1 the constructor silently
accepts the duplicate key (the truthy check treats the empty first value
as no conflict) and keeps the second value, instead of failing with the
configuration error naming both values as the claim requires. -/
theorem c3_duplicate_empty_accepted :
    parseFQBN (str ("a:b:c:o1=,o1=v1")) =
      .ok ⟨str ("a"), str ("b"), str ("c"),
        some [(str ("o1"), str ("v1"))]⟩ := by decide

/-- C2 (counterexample): for the raw string a:b:c:k=a=b parsing succeeds
but assigns value a to key k — not the entire text a=b after the first
equals sign, refuting the claim. -/
theorem c2_counterexample :
    parseFQBN (str ("a:b:c:k=a=b")) =
      .ok ⟨str ("a"), str ("b"), str ("c"),
        some [(str ("k"), str ("a"))]⟩ ∧
    parseFQBN (str ("a:b:c:k=a=b")) ≠
      .ok ⟨str ("a"), str ("b"), str ("c"),
        some [(str ("k"), str ("a=b"))]⟩ :=
  ⟨by decide, by decide⟩

/-- C2 (amended): for a tuple of the form k=v=w with a grammar-valid key
k that does not collide with an Object.prototype member name and a
grammar-valid equals-free segment v, parsing succeeds and assigns
to k only the text v strictly between the first and the second equals
sign; the remainder w after the second equals sign is discarded without
any validation. (For a key such as toString the constructor instead
throws a duplicate configuration error: the truthy duplicate check reads
the inherited prototype member.) -/
theorem c2_split_truncates (V A B k v w : Str)
    (hV : isValidSegment V = true) (hA : isValidSegment A = true)
    (hB : isValidSegment B = true) (hBne : B ≠ [])
    (hk : isValidKey k = true) (hkp : isProtoKey k = false)
    (hv : v.all isSegChar = true)
    (hw1 : ':' ∉ w) (hw2 : ',' ∉ w) :
    parseFQBN
        (V ++ ':' :: A ++ ':' :: B ++ ':' :: k ++ '=' :: v ++ '=' :: w) =
      .ok ⟨V, A, B, some [(k, v)]⟩ := by
  have hkall : k.all isSegChar = true := by
    have h2 := hk
    simp only [isValidKey, Bool.and_eq_true] at h2
    exact h2.2
  have hrestc : ':' ∉ (k ++ '=' :: (v ++ '=' :: w)) := by
    intro hm
    rcases List.mem_append.1 hm with h1 | h1
    · exact seg_not_mem_colon hkall h1
    · rcases List.mem_cons.1 h1 with h2 | h2
      · exact absurd h2 (by decide)
      · rcases List.mem_append.1 h2 with h3 | h3
        · exact seg_not_mem_colon hv h3
        · rcases List.mem_cons.1 h3 with h4 | h4
          · exact absurd h4 (by decide)
          · exact hw1 h4
  have hrestm : ',' ∉ (k ++ '=' :: (v ++ '=' :: w)) := by
    intro hm
    rcases List.mem_append.1 hm with h1 | h1
    · exact seg_not_mem_comma hkall h1
    · rcases List.mem_cons.1 h1 with h2 | h2
      · exact absurd h2 (by decide)
      · rcases List.mem_append.1 h2 with h3 | h3
        · exact seg_not_mem_comma hv h3
        · rcases List.mem_cons.1 h3 with h4 | h4
          · exact absurd h4 (by decide)
          · exact hw2 h4
  have hsplit : splitOnChar ':'
      (V ++ ':' :: A ++ ':' :: B ++ ':' :: k ++ '=' :: v ++ '=' :: w) =
      [V, A, B, k ++ '=' :: (v ++ '=' :: w)] := by
    simp only [List.cons_append, List.append_assoc]
    rw [splitOnChar_append ':' V _ (seg_not_mem_colon hV),
      splitOnChar_append ':' A _ (seg_not_mem_colon hA),
      splitOnChar_append ':' B _ (seg_not_mem_colon hB),
      splitOnChar_not_mem ':' _ hrestc]
  have hcomma : splitOnChar ',' (k ++ '=' :: (v ++ '=' :: w)) =
      [k ++ '=' :: (v ++ '=' :: w)] := splitOnChar_not_mem ',' _ hrestm
  have heqsplit : splitOnChar '=' (k ++ '=' :: (v ++ '=' :: w)) =
      k :: v :: splitOnChar '=' w := by
    rw [splitOnChar_append '=' k _ (seg_not_mem_eq hkall),
      splitOnChar_append '=' v _ (seg_not_mem_eq hv)]
  have htuple : parseTuples
      (V ++ ':' :: A ++ ':' :: B ++ ':' :: k ++ '=' :: v ++ '=' :: w)
      [k ++ '=' :: (v ++ '=' :: w)] [] = .ok [(k, v)] := by
    rw [parseTuples, heqsplit]
    simp [parseTuples, hk, seg_all_isValidValue hv, jsGet, lookupOpt, hkp,
      jsSet_non_proto [] k v hkp, insertOpt]
  rw [parseFQBN, hsplit]
  simp only [hV, hA, hB, Bool.and_self, if_true,
    List.isEmpty_eq_false.2 hBne, Bool.false_eq_true, if_false,
    hcomma, htuple]
  rfl

/-- C2 (witness): concrete instance of the amended claim at
a:b:c:k=a=b (key k, kept value a, discarded remainder b). -/
theorem c2_split_truncates_witness :
    isValidKey (str ("k")) = true ∧ (str ("a")).all isSegChar = true ∧
    parseFQBN (str ("a") ++ ':' :: str ("b") ++ ':' :: str ("c") ++ ':' ::
        str ("k") ++ '=' :: str ("a") ++ '=' :: str ("b")) =
      .ok ⟨str ("a"), str ("b"), str ("c"),
        some [(str ("k"), str ("a"))]⟩ :=
  ⟨by decide, by decide,
    c2_split_truncates (str ("a")) (str ("b")) (str ("c")) (str ("k"))
      (str ("a")) (str ("b")) (by decide) (by decide) (by decide) (by decide)
      (by decide) (by decide) (by decide) (by decide) (by decide)⟩

/-- C1 (counterexample): a:b:c:o1=v1= is syntactically valid (the parser
accepts it, and its single option is trivially in insertion order), yet
serializing the parsed identifier yields a:b:c:o1=v1, not the input:
the trailing piece after the second equals sign was discarded by
split('=', 2). -/
theorem c1_counterexample :
    parseFQBN (str ("a:b:c:o1=v1=")) =
      .ok ⟨str ("a"), str ("b"), str ("c"),
        some [(str ("o1"), str ("v1"))]⟩ ∧
    (FQBN.mk (str ("a")) (str ("b")) (str ("c"))
        (some [(str ("o1"), str ("v1"))])).toStr ≠ str ("a:b:c:o1=v1=") :=
  ⟨by decide, by decide⟩

/-- C1 (amended): (1) for every raw string s the parser accepts whose
option tuples each contain exactly one equals sign and whose tuple keys
are pairwise distinct and already listed in JavaScript
property-enumeration order — integer-like keys first in ascending
numeric order, then the other keys (`canonicalRawB`) — serializing the
parsed identifier restores s exactly; (2) for every identifier x
satisfying the reachable data invariant (`wellformedB`, which includes
that key order), parsing the serialization of x yields an identifier
equal to x. -/
theorem c1_round_trip :
    (∀ (s : Str) (f : FQBN), parseFQBN s = .ok f → canonicalRawB s = true →
      f.toStr = s) ∧
    (∀ x : FQBN, wellformedB x = true → parseFQBN x.toStr = .ok x) :=
  ⟨toStr_parse_canonical, parse_toStr⟩

/-- C1 (witness): the round trip at the concrete canonical string
a:b:c:o1=v1,o2=v2 in both directions. -/
theorem c1_round_trip_witness :
    parseFQBN (str ("a:b:c:o1=v1,o2=v2")) =
      .ok ⟨str ("a"), str ("b"), str ("c"),
        some [(str ("o1"), str ("v1")), (str ("o2"), str ("v2"))]⟩ ∧
    (FQBN.mk (str ("a")) (str ("b")) (str ("c"))
        (some [(str ("o1"), str ("v1")), (str ("o2"), str ("v2"))])).toStr =
      str ("a:b:c:o1=v1,o2=v2") ∧
    parseFQBN (FQBN.mk (str ("a")) (str ("b")) (str ("c"))
        (some [(str ("o1"), str ("v1")), (str ("o2"), str ("v2"))])).toStr =
      .ok ⟨str ("a"), str ("b"), str ("c"),
        some [(str ("o1"), str ("v1")), (str ("o2"), str ("v2"))]⟩ :=
  ⟨by decide,
    c1_round_trip.1 _ _ (by decide) (by decide),
    c1_round_trip.2 _ (by decide)⟩

/-- C5 (counterexample): merging the fresh descriptor key 2 into
a:b:c:o1=v1 does not append it after the existing keys — an integer-like
property name is enumerated before every string key, so the result is
a:b:c:2=w,o1=v1 with the new key in front; and a descriptor keyed
toString (an Object.prototype member name) makes withConfigOptions
throw the duplicate configuration error instead of merging. Both refute
the claimed merge postcondition. -/
theorem c5_counterexample :
    FQBN.withConfigOptions
        ⟨str ("a"), str ("b"), str ("c"), some [(str ("o1"), str ("v1"))]⟩
        [⟨str ("2"), [⟨str ("w"), true⟩]⟩] =
      .ok ⟨str ("a"), str ("b"), str ("c"),
        some [(str ("2"), str ("w")), (str ("o1"), str ("v1"))]⟩ ∧
    keysOf [(str ("2"), str ("w")), (str ("o1"), str ("v1"))] ≠
      keysOf [(str ("o1"), str ("v1"))] ++ [str ("2")] ∧
    (FQBN.withConfigOptions
        ⟨str ("a"), str ("b"), str ("c"), some [(str ("o1"), str ("v1"))]⟩
        [⟨str ("toString"), [⟨str ("w"), true⟩]⟩]).isOk = false :=
  ⟨by decide, by decide, by decide⟩

/-- C5 (amended): merge postcondition of withConfigOptions for every
wellformed identifier and valid descriptor list (one selected value per
key, grammar-valid keys and values, distinct keys avoiding
Object.prototype member names) whose keys are not integer-like (an
integer-like fresh key would be enumerated before the existing keys
instead of after them, and a prototype-name key would throw): when every
resolved pair already equals the current value (in particular when the
input is empty) the very same value x is returned; otherwise the result
keeps the base segments and its options are exactly the overlay merge —
existing keys in their original positions with values overlaid, new keys
appended after all existing keys in descriptor order (made explicit by
the keysOf equation). -/
theorem c5_merge_postcondition (x : FQBN) (l : List ConfigOption)
    (hx : wellformedB x = true) (hl : validDescList l = true)
    (hidx : ∀ co ∈ l, isArrayIndex co.option = false) :
    ((descPairs l).all
        (fun kv => lookupOpt (x.options.getD []) kv.1 == some kv.2) = true →
      x.withConfigOptions l = .ok x) ∧
    ((descPairs l).all
        (fun kv => lookupOpt (x.options.getD []) kv.1 == some kv.2) = false →
      x.withConfigOptions l =
        .ok ⟨x.vendor, x.arch, x.boardId,
          some (overlayOpts (x.options.getD []) (descPairs l))⟩ ∧
      keysOf (overlayOpts (x.options.getD []) (descPairs l)) =
        keysOf (x.options.getD []) ++
          keysOf ((descPairs l).filter
            (fun kv => (lookupOpt (x.options.getD []) kv.1).isNone))) := by
  have hspec := withConfigOptions_spec x l hx hl hidx
  constructor
  · intro hall
    rw [hspec, if_pos hall]
  · intro hall
    rw [hspec, if_neg (by simp [hall])]
    exact ⟨rfl, keysOf_overlayOpts _ _⟩

/-- C5 (witness): merging descriptors o3 (new, selected x1) and o2
(existing, selected w2) into a:b:c:o1=v1,o2=w1 keeps o1 and o2 in place
and appends o3. -/
theorem c5_merge_postcondition_witness :
    wellformedB ⟨str ("a"), str ("b"), str ("c"),
        some [(str ("o1"), str ("v1")), (str ("o2"), str ("w1"))]⟩ = true ∧
    FQBN.withConfigOptions
      (FQBN.mk (str ("a")) (str ("b")) (str ("c"))
        (some [(str ("o1"), str ("v1")), (str ("o2"), str ("w1"))]))
      [⟨str ("o3"), [⟨str ("x1"), true⟩, ⟨str ("x2"), false⟩]⟩,
       ⟨str ("o2"), [⟨str ("w1"), false⟩, ⟨str ("w2"), true⟩]⟩] =
      .ok ⟨str ("a"), str ("b"), str ("c"),
        some (overlayOpts
          [(str ("o1"), str ("v1")), (str ("o2"), str ("w1"))]
          (descPairs
            [⟨str ("o3"), [⟨str ("x1"), true⟩, ⟨str ("x2"), false⟩]⟩,
             ⟨str ("o2"), [⟨str ("w1"), false⟩, ⟨str ("w2"), true⟩]⟩]))⟩ :=
  ⟨by decide,
    ((c5_merge_postcondition
      ⟨str ("a"), str ("b"), str ("c"),
        some [(str ("o1"), str ("v1")), (str ("o2"), str ("w1"))]⟩
      [⟨str ("o3"), [⟨str ("x1"), true⟩, ⟨str ("x2"), false⟩]⟩,
       ⟨str ("o2"), [⟨str ("w1"), false⟩, ⟨str ("w2"), true⟩]⟩]
      (by decide) (by decide) (by decide)).2 (by decide)).1⟩

/-- C4 (counterexample): on a:b:c:o1= the key o1 is present with the
empty-string value, yet strict-mode setConfigOption throws the
strict-missing configuration error, refuting "succeeds whenever k is
already present with any value". -/
theorem c4_counterexample :
    parseFQBN (str ("a:b:c:o1=")) =
      .ok ⟨str ("a"), str ("b"), str ("c"), some [(str ("o1"), [])]⟩ ∧
    (FQBN.mk (str ("a")) (str ("b")) (str ("c"))
        (some [(str ("o1"), [])])).setConfigOption
        (str ("o1")) (str ("v1")) true =
      .error (.configOption (str ("a:b:c:o1="))
        (.strictMissing (str ("a:b:c:o1=")) (str ("o1")))) :=
  ⟨by decide, by decide⟩

/-- C4 (amended): for a wellformed identifier, a grammar-valid key that
does not collide with an Object.prototype member name, and a
grammar-valid equals-free value, strict-mode setConfigOption succeeds
exactly when the key is present with a non-empty value (absent keys and
keys mapped to the empty string both throw, because the strict check is
a truthiness test on a prototype-chain read), and non-strict mode never
throws: it returns an identifier in which the key now maps to the
requested value. -/
theorem c4_strict_set (x : FQBN) (k v : Str) (hx : wellformedB x = true)
    (hk : isValidKey k = true) (hv : v.all isSegChar = true)
    (hkp : isProtoKey k = false) :
    ((x.setConfigOption k v true).isOk = presentNonempty x k) ∧
    (∃ y, x.setConfigOption k v false = .ok y ∧
      lookupOpt (y.options.getD []) k = some v) := by
  have hsingle := withConfigOptions_single x k v hx hk hv hkp
  have hcond : truthyOpt (jsGet (x.options.getD []) k) = presentNonempty x k := by
    rw [truthyOpt_jsGet _ k hkp]
    rfl
  have hok : ∃ y, x.withConfigOptions [⟨k, [⟨v, true⟩]⟩] = .ok y ∧
      lookupOpt (y.options.getD []) k = some v := by
    by_cases hlk : lookupOpt (x.options.getD []) k = some v
    · exact ⟨x, by rw [hsingle, if_pos hlk], hlk⟩
    · refine ⟨⟨x.vendor, x.arch, x.boardId,
        some (insertOpt (x.options.getD []) k v)⟩,
        by rw [hsingle, if_neg hlk], ?_⟩
      simpa using lookupOpt_insertOpt_self (x.options.getD []) k v
  constructor
  · rw [FQBN.setConfigOption]
    simp only [hcond, Bool.true_and]
    rcases hpn : presentNonempty x k with _ | _
    · simp [Except.isOk, Except.toBool]
    · simp only [Bool.not_true, Bool.false_eq_true, if_false]
      obtain ⟨y, hy, _⟩ := hok
      simp [hy, Except.isOk, Except.toBool]
  · rw [FQBN.setConfigOption]
    simp only [Bool.false_and, Bool.false_eq_true, if_false]
    exact hok

/-- C4 (witness): on a:b:c:o1=v1 the strict update of the present key o1
succeeds, and the non-strict insertion of the absent key o2 succeeds
with o2 mapped to the requested value. -/
theorem c4_strict_set_witness :
    wellformedB ⟨str ("a"), str ("b"), str ("c"),
        some [(str ("o1"), str ("v1"))]⟩ = true ∧
    ((FQBN.mk (str ("a")) (str ("b")) (str ("c"))
        (some [(str ("o1"), str ("v1"))])).setConfigOption
        (str ("o1")) (str ("v2")) true).isOk =
      presentNonempty ⟨str ("a"), str ("b"), str ("c"),
        some [(str ("o1"), str ("v1"))]⟩ (str ("o1")) ∧
    (∃ y, (FQBN.mk (str ("a")) (str ("b")) (str ("c"))
        (some [(str ("o1"), str ("v1"))])).setConfigOption
        (str ("o2")) (str ("w")) false = .ok y ∧
      lookupOpt (y.options.getD []) (str ("o2")) = some (str ("w"))) :=
  ⟨by decide,
    (c4_strict_set ⟨str ("a"), str ("b"), str ("c"),
        some [(str ("o1"), str ("v1"))]⟩ (str ("o1")) (str ("v2"))
      (by decide) (by decide) (by decide) (by decide)).1,
    (c4_strict_set ⟨str ("a"), str ("b"), str ("c"),
        some [(str ("o1"), str ("v1"))]⟩ (str ("o2")) (str ("w"))
      (by decide) (by decide) (by decide) (by decide)).2⟩

/-- C8: two wellformed identifiers are equal under equals exactly when
vendor, arch and boardId agree and the option mappings hold the same
key/value pairs as sets, regardless of insertion order (both absent also
counts as equal). -/
theorem c8_equals_set (x y : FQBN) (hx : wellformedB x = true)
    (hy : wellformedB y = true) :
    x.equalsB y = true ↔
      x.vendor = y.vendor ∧ x.arch = y.arch ∧ x.boardId = y.boardId ∧
        sameOptionPairs x.options y.options :=
  equalsB_iff x y hx hy

/-- C8 (witness): the order-insensitive instance
a:b:c:o1=v1,o2=v2 equals a:b:c:o2=v2,o1=v1. -/
theorem c8_equals_set_witness :
    wellformedB ⟨str ("a"), str ("b"), str ("c"),
        some [(str ("o1"), str ("v1")), (str ("o2"), str ("v2"))]⟩ = true ∧
    (FQBN.equalsB
        ⟨str ("a"), str ("b"), str ("c"),
          some [(str ("o1"), str ("v1")), (str ("o2"), str ("v2"))]⟩
        ⟨str ("a"), str ("b"), str ("c"),
          some [(str ("o2"), str ("v2")), (str ("o1"), str ("v1"))]⟩ = true ↔
      str ("a") = str ("a") ∧ str ("b") = str ("b") ∧
        str ("c") = str ("c") ∧
        sameOptionPairs
          (some [(str ("o1"), str ("v1")), (str ("o2"), str ("v2"))])
          (some [(str ("o2"), str ("v2")), (str ("o1"), str ("v1"))])) :=
  ⟨by decide,
    c8_equals_set
      ⟨str ("a"), str ("b"), str ("c"),
        some [(str ("o1"), str ("v1")), (str ("o2"), str ("v2"))]⟩
      ⟨str ("a"), str ("b"), str ("c"),
        some [(str ("o2"), str ("v2")), (str ("o1"), str ("v1"))]⟩
      (by decide) (by decide)⟩

theorem validOptsB_take (o : Opts) (n : Nat) (ho : validOptsB o = true) :
    validOptsB (o.take n) = true := by
  rw [validOptsB_iff] at ho ⊢
  have hsub : (keysOf (o.take n)).Sublist (keysOf o) := by
    simp only [keysOf, ← List.map_take]
    exact (List.take_sublist n o).map Prod.fst
  exact ⟨fun kv hkv => ho.1 kv (List.mem_of_mem_take hkv),
    hsub.nodup ho.2.1, ho.2.2.sublist hsub⟩

/-- C7: limitConfigOptions on a wellformed identifier raises the range
error exactly when the rational argument is negative or not an integer;
at zero it equals sanitize; when the option count is within the limit
the same value is returned; otherwise exactly the first maxOptions
options are kept in order. -/
theorem c7_limit_config_options (x : FQBN) (q : ℚ)
    (hx : wellformedB x = true) :
    (x.limitConfigOptions q = .error .rangeErr ↔ (¬q.den = 1 ∨ q < 0)) ∧
    (q = 0 → x.limitConfigOptions q = x.sanitizeE) ∧
    (q.den = 1 → ¬q < 0 → ((x.options.getD []).length : ℚ) ≤ q →
      x.limitConfigOptions q = .ok x) ∧
    (q.den = 1 → ¬q < 0 → q ≠ 0 → ¬(((x.options.getD []).length : ℚ) ≤ q) →
      x.limitConfigOptions q =
        .ok ⟨x.vendor, x.arch, x.boardId,
          some ((x.options.getD []).take q.num.toNat)⟩) := by
  by_cases hcond : ¬q.den = 1 ∨ q < 0
  · rw [FQBN.limitConfigOptions, if_pos hcond]
    refine ⟨⟨fun _ => hcond, fun _ => rfl⟩, ?_, ?_, ?_⟩
    · intro h0
      subst h0
      rcases hcond with h | h
      · exact absurd rfl h
      · exact absurd h (by norm_num)
    · intro hden hpos _
      rcases hcond with h | h
      · exact absurd hden h
      · exact absurd h hpos
    · intro hden hpos _ _
      rcases hcond with h | h
      · exact absurd hden h
      · exact absurd h hpos
  · have hden : q.den = 1 := by
      rcases not_or.1 hcond with ⟨h1, _⟩
      exact not_not.1 h1
    have hpos : ¬q < 0 := (not_or.1 hcond).2
    rw [FQBN.limitConfigOptions, if_neg hcond]
    rcases ho : x.options with _ | o
    · refine ⟨iff_of_false (by simp) (fun h => ?_), ?_, fun _ _ _ => rfl, ?_⟩
      · rcases h with h | h
        · exact h hden
        · exact hpos h
      · intro h0
        rw [FQBN.sanitizeE]
        simp [hasConfigOptions, ho]
      · intro _ _ _ h4
        refine absurd ?_ h4
        simp only [ho, Option.getD_none, List.length_nil, Nat.cast_zero]
        exact not_lt.1 hpos
    · obtain ⟨hone, hov⟩ := wellformedB_opts hx ho
      simp only [Option.getD_some]
      by_cases hq0 : q = 0
      · rw [if_pos hq0]
        refine ⟨?_, fun _ => rfl, ?_, fun _ _ h3 _ => absurd hq0 h3⟩
        · rw [sanitizeE_wf x hx]
          exact iff_of_false (by simp) (fun h => by
            rcases h with h | h
            · exact h hden
            · exact hpos h)
        · intro _ _ hlen
          simp only [ho, Option.getD_some, hq0] at hlen
          have : o.length = 0 := by exact_mod_cast le_antisymm hlen (by positivity)
          exact absurd (List.length_eq_zero.1 this) hone
      · rw [if_neg hq0]
        by_cases hlen : ((o.length : ℚ)) ≤ q
        · rw [if_pos hlen]
          refine ⟨iff_of_false (by simp) (fun h => ?_), fun h0 => absurd h0 hq0,
            fun _ _ _ => rfl, fun _ _ _ h4 => ?_⟩
          · rcases h with h | h
            · exact h hden
            · exact hpos h
          · exact absurd hlen h4
        · rw [if_neg hlen]
          obtain ⟨h1, h2, h3, h4, _⟩ := wellformedB_parts hx
          have hnum : 0 < q.num := by
            rcases lt_or_eq_of_le (Rat.num_nonneg.2 (not_lt.1 hpos)) with h | h
            · exact h
            · exact absurd (Rat.num_eq_zero.1 h.symm) hq0
          have htne : o.take q.num.toNat ≠ [] := by
            intro htn
            rcases List.take_eq_nil_iff.1 htn with h | h
            · rw [Int.toNat_eq_zero] at h
              omega
            · exact hone h
          have hparse := parse_serialize_some x.vendor x.arch x.boardId
            (o.take q.num.toNat) h1 h2 h3 h4
            (validOptsB_take o q.num.toNat hov) htne
          refine ⟨iff_of_false (by simp [hparse]) (fun h => ?_),
            fun h0 => absurd h0 hq0, fun _ _ hl => ?_, fun _ _ _ _ => ?_⟩
          · rcases h with h | h
            · exact h hden
            · exact hpos h
          · exact absurd hl hlen
          · rw [hparse]

/-- C7 (witness): on a:b:c:o1=v1,o2=v2,o3=v3 the non-integer limit 3/2
raises the range error, and the limit 2 keeps exactly the first two
options. -/
theorem c7_limit_config_options_witness :
    wellformedB ⟨str ("a"), str ("b"), str ("c"),
        some [(str ("o1"), str ("v1")), (str ("o2"), str ("v2")),
          (str ("o3"), str ("v3"))]⟩ = true ∧
    ((FQBN.mk (str ("a")) (str ("b")) (str ("c"))
        (some [(str ("o1"), str ("v1")), (str ("o2"), str ("v2")),
          (str ("o3"), str ("v3"))])).limitConfigOptions
        (⟨3, 2, by decide, by decide⟩ : ℚ) = .error .rangeErr ↔
      (¬(⟨3, 2, by decide, by decide⟩ : ℚ).den = 1 ∨
        (⟨3, 2, by decide, by decide⟩ : ℚ) < 0)) ∧
    (FQBN.mk (str ("a")) (str ("b")) (str ("c"))
        (some [(str ("o1"), str ("v1")), (str ("o2"), str ("v2")),
          (str ("o3"), str ("v3"))])).limitConfigOptions 2 =
      .ok ⟨str ("a"), str ("b"), str ("c"),
        some ([(str ("o1"), str ("v1")), (str ("o2"), str ("v2")),
          (str ("o3"), str ("v3"))].take (2 : ℚ).num.toNat)⟩ :=
  ⟨by decide,
    (c7_limit_config_options _ _ (by decide)).1,
    (c7_limit_config_options _ _ (by decide)).2.2.2
      (by decide) (by decide) (by decide) (by decide)⟩

theorem mem_joinSep_of_mem (sep : Char) (parts : List Str) (p : Str)
    (c : Char) (hp : p ∈ parts) (hc : c ∈ p) : c ∈ joinSep sep parts := by
  induction parts with
  | nil => simp at hp
  | cons q qs ih =>
    cases qs with
    | nil =>
      simp only [List.mem_singleton] at hp
      subst hp
      simpa [joinSep] using hc
    | cons r rs =>
      rw [joinSep]
      rcases List.mem_cons.1 hp with h1 | h1
      · subst h1
        exact List.mem_append.2 (Or.inl hc)
      · exact List.mem_append.2 (Or.inr (List.mem_cons.2 (Or.inr (ih h1))))

theorem parse_serialize_colon_error (V A B : Str) (o : Opts)
    (hV : isValidSegment V = true) (hA : isValidSegment A = true)
    (hB : isValidSegment B = true)
    (hcol : ':' ∈ joinSep ',' (o.map tupleStr)) :
    (parseFQBN (serialize V A B (some o))).isOk = false := by
  have hcne : joinSep ',' (o.map tupleStr) ≠ [] := by
    intro h0
    rw [h0] at hcol
    simp at hcol
  have hsplit : splitOnChar ':' (serialize V A B (some o)) =
      V :: A :: B :: splitOnChar ':' (joinSep ',' (o.map tupleStr)) := by
    simp only [serialize, List.isEmpty_eq_false.2 hcne, Bool.false_eq_true,
      if_false, List.cons_append, List.append_assoc]
    rw [splitOnChar_append ':' V _ (seg_not_mem_colon hV),
      splitOnChar_append ':' A _ (seg_not_mem_colon hA),
      splitOnChar_append ':' B _ (seg_not_mem_colon hB)]
  have hlen : 2 ≤ (splitOnChar ':' (joinSep ',' (o.map tupleStr))).length := by
    rw [splitOnChar_length]
    have h1 : 0 < List.count ':' (joinSep ',' (o.map tupleStr)) :=
      List.count_pos_iff.2 hcol
    omega
  rw [parseFQBN, hsplit]
  rcases hl : splitOnChar ':' (joinSep ',' (o.map tupleStr))
      with _ | ⟨c1, _ | ⟨c2, rest⟩⟩
  · rw [hl] at hlen
    simp at hlen
  · rw [hl] at hlen
    simp at hlen
  · rfl

theorem mem_self_insertOpt (r : Opts) (k v : Str) : (k, v) ∈ insertOpt r k v :=
  lookupOpt_mem _ _ _ (lookupOpt_insertOpt_self r k v)

theorem withConfigOptions_preserves_wf (x : FQBN) (l : List ConfigOption)
    (y : FQBN) (hx : wellformedB x = true)
    (h : x.withConfigOptions l = .ok y) : wellformedB y = true := by
  rw [FQBN.withConfigOptions] at h
  split at h
  · simp only [Except.ok.injEq] at h
    subst h
    exact hx
  · rcases hres : resolveNewOptions (x.toStr) l [] with e | newOptions <;>
      rw [hres] at h
    · simp at h
    · have h2 : (if (!(applyUpdates (x.options.getD []) newOptions).2) = true
          then Except.ok x
          else parseFQBN (serialize x.vendor x.arch x.boardId
            (some (applyUpdates (x.options.getD []) newOptions).1))) =
          Except.ok y := h
      split at h2
      · simp only [Except.ok.injEq] at h2
        subst h2
        exact hx
      · exact parse_wf _ _ h2

theorem sanitizeE_preserves_wf (x y : FQBN) (hx : wellformedB x = true)
    (h : x.sanitizeE = .ok y) : wellformedB y = true := by
  rw [FQBN.sanitizeE] at h
  split at h
  · exact parse_wf _ _ h
  · simp only [Except.ok.injEq] at h
    subst h
    exact hx

theorem setConfigOption_preserves_wf (x : FQBN) (k v : Str) (strict : Bool)
    (y : FQBN) (hx : wellformedB x = true)
    (h : x.setConfigOption k v strict = .ok y) : wellformedB y = true := by
  rw [FQBN.setConfigOption] at h
  split at h
  · simp at h
  · exact withConfigOptions_preserves_wf x _ y hx h

theorem withFQBN_preserves_wf (x : FQBN) (s : Str) (y : FQBN)
    (hx : wellformedB x = true) (h : x.withFQBN s = .ok y) :
    wellformedB y = true := by
  rw [FQBN.withFQBN] at h
  rcases hp : parseFQBN s with e | other
  · simp only [hp] at h
    exact absurd h (by simp)
  · simp only [hp] at h
    rcases hs : x.sanitizeE with e | xs
    · simp only [hs] at h
      exact absurd h (by simp)
    · simp only [hs] at h
      rcases hos : other.sanitizeE with e | os
      · simp only [hos] at h
        exact absurd h (by simp)
      · simp only [hos] at h
        split at h
        · exact absurd h (by simp)
        · exact withConfigOptions_preserves_wf x _ y hx h

theorem limitConfigOptions_preserves_wf (x : FQBN) (q : ℚ) (y : FQBN)
    (hx : wellformedB x = true) (h : x.limitConfigOptions q = .ok y) :
    wellformedB y = true := by
  rw [FQBN.limitConfigOptions] at h
  split at h
  · simp at h
  · rcases ho : x.options with _ | o
    · simp only [ho, Except.ok.injEq] at h
      subst h
      exact hx
    · simp only [ho] at h
      split at h
      · exact sanitizeE_preserves_wf x y hx h
      · split at h
        · simp only [Except.ok.injEq] at h
          subst h
          exact hx
        · exact parse_wf _ _ h

theorem setConfigOption_colon_error (x : FQBN) (k v : Str)
    (hx : wellformedB x = true) (hv : ':' ∈ v) :
    (x.setConfigOption k v false).isOk = false := by
  obtain ⟨h1, h2, h3, _, _⟩ := wellformedB_parts hx
  rw [FQBN.setConfigOption]
  simp only [Bool.false_and, Bool.false_eq_true, if_false]
  rw [FQBN.withConfigOptions]
  simp only [List.isEmpty_cons, Bool.false_eq_true, if_false]
  rcases hpk : isProtoKey k with _ | _
  · rw [resolveNewOptions_single (x.toStr) k v hpk]
    have hne : ¬jsGet (x.options.getD []) k = some (.ownStr v) := by
      intro h0
      have hmem := lookupOpt_mem _ _ _ ((jsGet_ownStr_iff _ k v).1 h0)
      obtain ⟨_, hval, _⟩ := validEntry_parts
        (((validOptsB_iff _).1 (validOptsB_getD x hx)).1 (k, v) hmem)
      exact seg_not_mem_colon hval hv
    simp only [applyUpdates, if_neg hne, jsSet_non_proto _ k v hpk,
      Bool.not_true, Bool.false_eq_true, if_false]
    apply parse_serialize_colon_error x.vendor x.arch x.boardId _ h1 h2 h3
    refine mem_joinSep_of_mem ',' _ (tupleStr (k, v)) ':'
      (List.mem_map.2 ⟨(k, v), mem_self_insertOpt _ k v, rfl⟩) ?_
    rw [tupleStr]
    exact List.mem_append.2 (Or.inr (List.mem_cons.2 (Or.inr hv)))
  · have hg : jsGet [] k = some PropVal.inherited := by
      simp [jsGet, lookupOpt, hpk]
    have hres : resolveNewOptions (x.toStr) [⟨k, [⟨v, true⟩]⟩] [] =
        .error (.configOption (x.toStr)
          (.duplicate k PropVal.inherited v)) := by
      simp [resolveNewOptions, List.filter_cons, hg, truthyP]
    simp [hres, Except.isOk, Except.toBool]

/-- C10 (counterexample): the selected value v1,o2=v2 contains a comma
(outside the value grammar), yet setConfigOption succeeds — the comma
survives serialization and is re-parsed as a second key=value tuple, so
no classified error is raised (the resulting instance is still valid). -/
theorem c10_counterexample :
    FQBN.setConfigOption ⟨str ("a"), str ("b"), str ("c"), none⟩
        (str ("o1")) (str ("v1,o2=v2")) false =
      .ok ⟨str ("a"), str ("b"), str ("c"),
        some [(str ("o1"), str ("v1")), (str ("o2"), str ("v2"))]⟩ ∧
    (FQBN.setConfigOption ⟨str ("a"), str ("b"), str ("c"), none⟩
        (str ("o1")) (str ("v1,o2=v2")) false).isOk = true :=
  ⟨by decide, by decide⟩

/-- C10 (amended): every update operation re-runs the full constructor
validation, so every reachable identifier satisfies the data invariant
`wellformedB` (boardId non-empty, segments and option keys/values in
their character classes, keys distinct, options absent rather than
empty): parsing establishes the invariant and withConfigOptions,
setConfigOption, withFQBN, limitConfigOptions and sanitize preserve it;
moreover a selected value containing a colon always raises a classified
error. (A value containing a comma may instead be silently reinterpreted
as extra key=value tuples — see the counterexample — but even then only
valid instances are produced.) -/
theorem c10_invariant_preservation :
    (∀ (s : Str) (f : FQBN), parseFQBN s = .ok f → wellformedB f = true) ∧
    (∀ (x : FQBN) (l : List ConfigOption) (y : FQBN),
      wellformedB x = true → x.withConfigOptions l = .ok y →
      wellformedB y = true) ∧
    (∀ (x : FQBN) (k v : Str) (strict : Bool) (y : FQBN),
      wellformedB x = true → x.setConfigOption k v strict = .ok y →
      wellformedB y = true) ∧
    (∀ (x : FQBN) (s : Str) (y : FQBN),
      wellformedB x = true → x.withFQBN s = .ok y →
      wellformedB y = true) ∧
    (∀ (x : FQBN) (q : ℚ) (y : FQBN),
      wellformedB x = true → x.limitConfigOptions q = .ok y →
      wellformedB y = true) ∧
    (∀ (x y : FQBN),
      wellformedB x = true → x.sanitizeE = .ok y → wellformedB y = true) ∧
    (∀ (x : FQBN) (k v : Str), wellformedB x = true → ':' ∈ v →
      (x.setConfigOption k v false).isOk = false) :=
  ⟨parse_wf, withConfigOptions_preserves_wf, setConfigOption_preserves_wf,
    withFQBN_preserves_wf, limitConfigOptions_preserves_wf,
    sanitizeE_preserves_wf, setConfigOption_colon_error⟩

/-- C10 (witness): the parse of a:b:c:o1=v1 satisfies the data
invariant, and setting the colon-containing value v:1 raises a
classified error. -/
theorem c10_invariant_preservation_witness :
    wellformedB ⟨str ("a"), str ("b"), str ("c"),
        some [(str ("o1"), str ("v1"))]⟩ = true ∧
    (FQBN.setConfigOption ⟨str ("a"), str ("b"), str ("c"), none⟩
        (str ("o1")) (str ("v:1")) false).isOk = false :=
  ⟨c10_invariant_preservation.1 (str ("a:b:c:o1=v1"))
      ⟨str ("a"), str ("b"), str ("c"), some [(str ("o1"), str ("v1"))]⟩
      (by decide),
    c10_invariant_preservation.2.2.2.2.2.2
      ⟨str ("a"), str ("b"), str ("c"), none⟩ (str ("o1")) (str ("v:1"))
      (by decide) (by decide)⟩
